import Mathlib

/-!
Shallow embedding of `WhenInRome.py` (tool that infers clang-format settings by
greedy per-option experimentation over a disk-backed artifact cache).

Modelling conventions, justified against the source:
* Python dicts preserve insertion order (3.7+); styles are therefore modelled as
  insertion-ordered association lists with Python's `d[k] = v` / `d.update(..)`
  semantics (`assocSet`, `dictUpdate`).
* Files are modelled by their `readlines` decomposition (`List String`); an
  existing empty file is `some []`, an absent file is `none`; the `os.path.getsize
  > 0` checks become `≠ some []` on the stored line list.
* The dump directory is modelled as a map from the iteration counter to an
  iteration directory (`FS`); all cache operations of the program address only
  the current iteration's directory, which the model mirrors.
* The signature files `key` / `baseStyle` are written together, removed together
  (`shutil.rmtree`), and compared together, so they are modelled as one optional
  record `sig : Option (String × Style)`.  `json.dumps` is injective on the
  string-to-string dicts the program serializes, and its output is never the
  empty string, so the program's comparison of the serialized text is modelled
  as equality of the deserialized record, and a missing file (read back as `''`
  by `_readIterFileContent`) as `none`, which never compares equal.
* `clang-format` and `diff -u` are external oracles; they are parameters
  `fOr : Style → List String` (output of clang-format on the fixed canonical
  sample under a given `.clang-format` content) and
  `dOr : List String → List String → List String` (unified diff of two line
  buffers).  Both programs are deterministic in their inputs, which is all the
  model assumes.
* The per-candidate formatter and diff child processes write to disjoint
  per-candidate directories and are joined before the next stage, so the
  concurrent batch is modelled as a left-to-right fold over the candidate list;
  candidate names are dict keys, hence distinct, so no interleaving is
  observable.
* Prints, `sys.stdout.flush`, and the verbose/low-confidence messages do not
  affect program state and are not modelled.  `sys.exit(1)` and the `IndexError`
  on an empty candidate list are modelled as the `Except.error` results of
  `experimentForOption`.
-/

/-- A clang-format style: Python dict from option key to a scalar value, modelled
as an insertion-ordered association list.  Scalar YAML values (strings, bools,
numbers) are modelled by their textual form. -/
abbrev Style := List (String × String)

/-- Python's `d[k] = v` on an insertion-ordered dict: replace the value in place
when the key is present (keeping its position), otherwise append the binding. -/
def assocSet {α : Type} (m : List (String × α)) (k : String) (v : α) : List (String × α) :=
  if m.any (fun p => decide (p.1 = k)) then
    m.map (fun p => if p.1 = k then (k, v) else p)
  else m ++ [(k, v)]

/-- Python's `d[k] = v` specialized to styles (line 293: `baseStyle[key] = ...`,
and line 223: `{key: val}`). -/
def dictSet (m : Style) (k v : String) : Style := assocSet m k v

/-- Python's `style.update(valDict)` (line 236): assign every binding of the
override into the style, left to right. -/
def dictUpdate (m upd : Style) : Style :=
  upd.foldl (fun acc p => assocSet acc p.1 p.2) m

/-- One entry of an option's candidate list (lines 217-224): either a bare
scalar (`vkey = val`, override `{key: val}`) or a one-entry dict mapping an
alias name to an explicit override mapping. -/
inductive CandVal where
  | plain (v : String)
  | named (name : String) (override : Style)
deriving DecidableEq

/-- Lines 216-224: build the `valNamesAndStyles` dict, name to override, with
Python dict insertion semantics (a duplicate name keeps its first position and
takes the last override). -/
def valNamesAndStyles (key : String) (values : List CandVal) : List (String × Style) :=
  values.foldl
    (fun m v =>
      match v with
      | .plain s => assocSet m s [(key, s)]
      | .named n ov => assocSet m n ov) []

/-- Lines 77-88 of `InputSourceCode.__init__`: concatenate each input file's
lines in order, appending the one-element separator `['\n']` after each file. -/
def assembleLines (files : List (List String)) : List String :=
  files.foldl (fun acc f => acc ++ f ++ ["\n"]) []

/-- The data `experimentForOption` consumes from `InputSourceCode`: the canonical
line list and the dirty flag. -/
structure InputSC where
  lines : List String
  dirty : Bool
deriving DecidableEq

/-- Lines 69-91: the canonical sample is rebuilt from the input files and
compared line-for-line with the previous canonical copy (`oldContent`; `[]`
when the file was absent, matching the bare `except: pass`). -/
def mkInputSC (oldContent : List String) (files : List (List String)) : InputSC :=
  { lines := assembleLines files, dirty := !(decide (oldContent = assembleLines files)) }

/-- The text written to the canonical copy (lines 80-87): `writelines`
concatenates the lines without adding separators. -/
def joinContent (lines : List String) : List Char :=
  lines.foldl (fun acc s => acc ++ s.data) []

/-- Python's `readlines` on a text: split after every newline character,
keeping it; a final piece without a newline is kept as a last line; an empty
text yields no lines. -/
def splitLinesAux : List Char → List Char → List String
  | acc, [] => if acc = [] then [] else [String.mk acc.reverse]
  | acc, c :: rest =>
    if c = '\n' then String.mk (acc.reverse ++ ['\n']) :: splitLinesAux [] rest
    else splitLinesAux (c :: acc) rest

/-- What lines 70-75 read back on a later run from a canonical copy that was
written as `lines`: `readlines` of the concatenated text.  This equals `lines`
itself exactly when every written line is newline-terminated with no interior
newlines; an input file without a trailing newline breaks the equality (its
last line and the separator read back merged), making every re-run dirty. -/
def readBackLines (lines : List String) : List String :=
  splitLinesAux [] (joinContent lines)

/-- The three per-candidate artifacts of one iteration subdirectory:
`.clang-format` (stored deserialized), `formatted<ext>`, `formatted.diff`. -/
structure CandidateSlot where
  styleFile : Option Style
  fmtFile : Option (List String)
  diffFile : Option (List String)
deriving DecidableEq

/-- A freshly created candidate subdirectory: no artifact files yet. -/
def CandidateSlot.empty : CandidateSlot := ⟨none, none, none⟩

/-- One `iter<N>` directory: the signature files (`key` and `baseStyle`,
written and wiped together) and one subdirectory per candidate name. -/
structure IterDir where
  sig : Option (String × Style)
  slots : List (String × CandidateSlot)
deriving DecidableEq

/-- The dump directory: the `iter<N>` directories indexed by the iteration
counter (`none` when the directory does not exist). -/
abbrev FS := Nat → Option IterDir

/-- A dump directory with no iteration directories (a fresh run). -/
def emptyFS : FS := fun _ => none

/-- Replace (or create) the directory of iteration `i`. -/
def fsSet (fs : FS) (i : Nat) (d : IterDir) : FS :=
  fun j => if j = i then some d else fs j

/-- `_ensureIterFolderExists` (lines 204-207): create the iteration directory
when absent; existing content is untouched. -/
def ensureIterFolder (fs : FS) (i : Nat) : FS :=
  match fs i with
  | some _ => fs
  | none => fsSet fs i ⟨none, []⟩

/-- The recorded signature of iteration `i`: contents of the `key` and
`baseStyle` files, `none` when missing (read back as `''`, which never equals a
`json.dumps` output or a written key). -/
def sigAt (fs : FS) (i : Nat) : Option (String × Style) :=
  match fs i with
  | some d => d.sig
  | none => none

/-- Look up candidate `v`'s subdirectory in an iteration directory. -/
def getSlot (d : IterDir) (v : String) : Option CandidateSlot :=
  (d.slots.find? (fun p => decide (p.1 = v))).map (fun p => p.2)

/-- Replace the first entry named `v` in a directory listing (appending when
absent).  Directory entries of a filesystem are unique, so first-match replace
coincides with replacing the entry named `v`. -/
def putSlot : List (String × CandidateSlot) → String → CandidateSlot → List (String × CandidateSlot)
  | [], v, s => [(v, s)]
  | p :: t, v, s => if p.1 = v then (v, s) :: t else p :: putSlot t v s

/-- Replace candidate `v`'s subdirectory (appending it when absent). -/
def setSlot (d : IterDir) (v : String) (s : CandidateSlot) : IterDir :=
  ⟨d.sig, putSlot d.slots v s⟩

/-- Candidate `v`'s subdirectory of iteration `i`, if both exist. -/
def slotAt (fs : FS) (i : Nat) (v : String) : Option CandidateSlot :=
  match fs i with
  | some d => getSlot d v
  | none => none

/-- Lines 132-134: `_writeIterFile('key', ...)` and `_writeIterFile('baseStyle',
...)`, overwriting the signature files of the current iteration. -/
def setSig (fs : FS) (i : Nat) (key : String) (bs : Style) : FS :=
  match fs i with
  | some d => fsSet fs i ⟨some (key, bs), d.slots⟩
  | none => fsSet fs i ⟨some (key, bs), []⟩

/-- Lines 138-141: `os.makedirs` of a candidate subdirectory when absent
(idempotent; an existing subdirectory and its artifacts are kept). -/
def ensureSlotDir (fs : FS) (i : Nat) (v : String) : FS :=
  match fs i with
  | some d =>
    match getSlot d v with
    | some _ => fs
    | none => fsSet fs i ⟨d.sig, d.slots ++ [(v, CandidateSlot.empty)]⟩
  | none => fs

/-- Apply `f` to candidate `v`'s subdirectory of iteration `i` (no-op when the
directory is absent, which the program never reaches: `startIteration` creates
every candidate subdirectory before the phases run). -/
def modifySlot (fs : FS) (i : Nat) (v : String) (f : CandidateSlot → CandidateSlot) : FS :=
  match fs i with
  | some d =>
    match getSlot d v with
    | some s => fsSet fs i (setSlot d v (f s))
    | none => fs
  | none => fs

/-- `FileCache.writeStyleFile` (lines 173-179): write the `.clang-format`
artifact only when it does not exist yet; first writer wins. -/
def writeStyleFile (fs : FS) (i : Nat) (v : String) (style : Style) : FS :=
  modifySlot fs i v
    (fun s =>
      match s.styleFile with
      | some _ => s
      | none => { s with styleFile := some style })

/-- `FileCache.hasFmtCache` (lines 163-166): the formatted artifact exists and
has size greater than zero. -/
def hasFmtCache (fs : FS) (i : Nat) (v : String) : Bool :=
  match slotAt fs i v with
  | some s =>
    match s.fmtFile with
    | some ls => !ls.isEmpty
    | none => false
  | none => false

/-- `FileCache.hasDiffCache` (lines 168-171): the diff artifact exists and has
size greater than zero. -/
def hasDiffCache (fs : FS) (i : Nat) (v : String) : Bool :=
  match slotAt fs i v with
  | some s =>
    match s.diffFile with
    | some ls => !ls.isEmpty
    | none => false
  | none => false

/-- Content of the stored `.clang-format` artifact of candidate `v`. -/
def styleFileAt (fs : FS) (i : Nat) (v : String) : Option Style :=
  match slotAt fs i v with
  | some s => s.styleFile
  | none => none

/-- Content of the formatted artifact of candidate `v` (what `diff` reads). -/
def fmtLinesAt (fs : FS) (i : Nat) (v : String) : List String :=
  match slotAt fs i v with
  | some s => s.fmtFile.getD []
  | none => []

/-- Content of the diff artifact of candidate `v` (what the score scan reads). -/
def diffLinesAt (fs : FS) (i : Nat) (v : String) : List String :=
  match slotAt fs i v with
  | some s => s.diffFile.getD []
  | none => []

/-- Capture of the formatter's stdout into the formatted artifact (the `>`
redirection truncates, so the file is overwritten). -/
def setFmtFile (fs : FS) (i : Nat) (v : String) (out : List String) : FS :=
  modifySlot fs i v (fun s => { s with fmtFile := some out })

/-- Capture of `diff -u`'s stdout into the diff artifact. -/
def setDiffFile (fs : FS) (i : Nat) (v : String) (out : List String) : FS :=
  modifySlot fs i v (fun s => { s with diffFile := some out })

/-- The mutable state of a `FileCache` object: the iteration counter `_iter`,
the sticky `_cacheDirty` flag, and the dump directory contents. -/
structure CacheState where
  iter : Nat
  cacheDirty : Bool
  fs : FS

/-- Lines 136-141: create the candidate subdirectories for all names, in
order, each idempotently. -/
def ensureSlots (fs : FS) (i : Nat) (names : List String) : FS :=
  names.foldl (fun f v => ensureSlotDir f i v) fs

/-- Lines 119-124 of `startIteration`: the `_cacheDirty` flag after the check:
it stays set once set, and is set when the recorded signature (read after
`_ensureIterFolderExists`) does not equal the newly computed one — a missing
signature file reads back as `''`, which never equals a written key together
with a `json.dumps` output, so a missing record also sets the flag. -/
def startDirty (st : CacheState) (key : String) (baseStyle : Style) : Bool :=
  st.cacheDirty ||
    !(decide (sigAt (ensureIterFolder st.fs (st.iter + 1)) (st.iter + 1) = some (key, baseStyle)))

/-- Lines 114-141 of `startIteration`, effect on the dump directory: ensure the
iteration directory, wipe and recreate it when the cache is dirty
(`shutil.rmtree` + `_ensureIterFolderExists`), record the new signature, and
create one (idempotent) subdirectory per candidate name. -/
def startFS (st : CacheState) (key : String) (baseStyle : Style)
    (valNames : List String) : FS :=
  ensureSlots
    (setSig
      (if startDirty st key baseStyle then
        fsSet (ensureIterFolder st.fs (st.iter + 1)) (st.iter + 1) ⟨none, []⟩
      else ensureIterFolder st.fs (st.iter + 1))
      (st.iter + 1) key baseStyle)
    (st.iter + 1) valNames

/-- `FileCache.startIteration` (lines 113-141): advance the counter, update the
dirty flag, and rebuild or reuse the iteration directory. -/
def startIteration (st : CacheState) (key : String) (baseStyle : Style)
    (valNames : List String) : CacheState :=
  ⟨st.iter + 1, startDirty st key baseStyle, startFS st key baseStyle valNames⟩

/-- Line 267: the scan `grep -e "^[\+\-]" ... | wc -l`.  In a POSIX basic-regex
bracket expression a backslash is an ordinary member, so the bracket denotes
the character set backslash, plus, minus: the scan matches every line whose
first character is `+`, `-` or `\`. -/
def grepMarkerLine (l : String) : Bool :=
  match l.data with
  | [] => false
  | c :: _ => c = '+' || c = '-' || c = '\\'

/-- Lines 264-270: a candidate's score is the number of matching lines of its
diff artifact reported by the grep pipeline. -/
def computeScore (ls : List String) : Nat := (ls.filter grepMarkerLine).length

/-- Reference definition following claim C5's words only: a line counted by the
score begins with a `+` or `-` marker. -/
def specMarkerLine (l : String) : Bool :=
  match l.data with
  | [] => false
  | c :: _ => c = '+' || c = '-'

/-- Reference definition following claim C5's words only: the score is the count
of diff lines carrying a change marker. -/
def specMarkerCount (ls : List String) : Nat := (ls.filter specMarkerLine).length

/-- Lines 264-270: the `results` list, one `(score, name)` record per candidate
name in candidate-list order. -/
def scoreResults (fs : FS) (i : Nat) (names : List String) : List (Nat × String) :=
  names.map (fun v => (computeScore (diffLinesAt fs i v), v))

/-- Insert a record into a score-sorted list, before the first record of score
greater than or equal to its own (the stable position). -/
def ordInsert (p : Nat × String) : List (Nat × String) → List (Nat × String)
  | [] => [p]
  | q :: t => if p.1 ≤ q.1 then p :: q :: t else q :: ordInsert p t

/-- Line 273: `results.sort(key=lambda x: x[0])`.  Python's sort is stable, and
a stable ascending sort by score is a unique function of the input list, so any
stable sort models it; this one is insertion sort. -/
def sortResults : List (Nat × String) → List (Nat × String)
  | [] => []
  | p :: t => ordInsert p (sortResults t)

/-- The minimum of a list of scores (`none` for an empty list). -/
def minScoreSpec : List Nat → Option Nat
  | [] => none
  | a :: t => some (match minScoreSpec t with | some m => min a m | none => a)

/-- The maximum of a list of scores (`none` for an empty list). -/
def maxScoreSpec : List Nat → Option Nat
  | [] => none
  | a :: t => some (match maxScoreSpec t with | some m => max a m | none => a)

/-- Lines 272-294, the decision step exactly as coded: sort the records, take
`minVal` from the first and `maxVal` from the last, ignore the option when
`minVal == maxVal` or `minVal >= prevScore`, otherwise assign
`baseStyle[key] = results[0][1]`; return the (possibly updated) style and
`minVal`.  `none` models the `IndexError` the program raises on `results[0]`
when the candidate list is empty. -/
def selectOutcome (bs : Style) (key : String) (prevScore : Nat)
    (results : List (Nat × String)) : Option (Style × Nat) :=
  match sortResults results with
  | [] => none
  | r0 :: t =>
    let minVal := r0.1
    let maxVal := (t.getLastD r0).1
    let ignore := decide (minVal = maxVal) || decide (prevScore ≤ minVal)
    some (if ignore then bs else dictSet bs key r0.2, minVal)

/-- The fatal message of lines 249-250, which names the offending candidate's
formatted artifact `<dumpDir>/iter<i>/<v>/formatted<ext>`. -/
def fmtFatalMsg (i : Nat) (v : String) : String :=
  "ERROR: Formated file not generated: iter" ++ toString i ++ "/" ++ v ++ "; invalid option?"

/-- Lines 232-243 for one candidate: when the formatted artifact is not cached,
build the effective style (deep copy of the base style updated with the
candidate's override), write the style artifact (first writer wins), and run
the formatter, which reads the `.clang-format` stored in the candidate
directory and writes its stdout to the formatted artifact. -/
def fmtStep (fOr : Style → List String) (i : Nat) (bs : Style)
    (acc : FS × Nat) (p : String × Style) : FS × Nat :=
  if hasFmtCache acc.1 i p.1 then acc
  else
    let eff := dictUpdate bs p.2
    let fs1 := writeStyleFile acc.1 i p.1 eff
    let used := (styleFileAt fs1 i p.1).getD eff
    (setFmtFile fs1 i p.1 (fOr used), acc.2 + 1)

/-- Lines 231-244: the formatter batch over all candidates (run as concurrent
processes over disjoint candidate directories, then joined; modelled as a
fold).  The second component counts the formatter invocations. -/
def fmtPhase (fOr : Style → List String) (i : Nat) (bs : Style)
    (pairs : List (String × Style)) (fs : FS) : FS × Nat :=
  pairs.foldl (fmtStep fOr i bs) (fs, 0)

/-- Lines 254-260 for one candidate: when the diff artifact is not cached, run
`diff -u` on the canonical sample and the stored formatted artifact, capturing
stdout into the diff artifact. -/
def diffStep (dOr : List String → List String → List String) (L : List String)
    (i : Nat) (acc : FS × Nat) (v : String) : FS × Nat :=
  if hasDiffCache acc.1 i v then acc
  else (setDiffFile acc.1 i v (dOr L (fmtLinesAt acc.1 i v)), acc.2 + 1)

/-- Lines 253-261: the diff batch over all candidates, with its invocation
count. -/
def diffPhase (dOr : List String → List String → List String) (L : List String)
    (i : Nat) (names : List String) (fs : FS) : FS × Nat :=
  names.foldl (diffStep dOr L i) (fs, 0)

/-- The observable outcome of a run: the accumulated style, the returned
running threshold (`minVal` of the last option), the cache state, and the
number of formatter and diff invocations performed. -/
structure RunResult where
  style : Style
  prevScore : Nat
  cache : CacheState
  fmtCalls : Nat
  diffCalls : Nat

/-- `experimentForOption` (lines 210-294): resolve candidate names and
overrides, start the cache iteration, run the formatter batch, abort fatally
when some candidate still has no non-empty formatted artifact (naming the first
such candidate's artifact), run the diff batch, score every candidate, and
apply the selection and acceptance step.  The iteration's candidate names
(Python's `valNames`, the dict keys in insertion order). -/
def expNames (key : String) (values : List CandVal) : List String :=
  (valNamesAndStyles key values).map (fun p => p.1)

/-- The dump directory and invocation count after the formatter batch of one
option's iteration (lines 227-244: `startIteration` then the batch). -/
def expFmtFS (fOr : Style → List String) (st : CacheState) (baseStyle : Style)
    (key : String) (values : List CandVal) : FS × Nat :=
  fmtPhase fOr (st.iter + 1) baseStyle (valNamesAndStyles key values)
    (startFS st key baseStyle (expNames key values))

/-- The dump directory and invocation count after the diff batch of one
option's iteration (lines 253-261). -/
def expDiffFS (fOr : Style → List String)
    (dOr : List String → List String → List String) (L : List String)
    (st : CacheState) (baseStyle : Style) (key : String)
    (values : List CandVal) : FS × Nat :=
  diffPhase dOr L (st.iter + 1) (expNames key values)
    (expFmtFS fOr st baseStyle key values).1

def experimentForOption (fOr : Style → List String)
    (dOr : List String → List String → List String) (L : List String)
    (st : CacheState) (baseStyle : Style) (key : String)
    (values : List CandVal) (prevScore : Nat) : Except String RunResult :=
  match (expNames key values).find?
      (fun v => !hasFmtCache (expFmtFS fOr st baseStyle key values).1 (st.iter + 1) v) with
  | some v => .error (fmtFatalMsg (st.iter + 1) v)
  | none =>
    match selectOutcome baseStyle key prevScore
        (scoreResults (expDiffFS fOr dOr L st baseStyle key values).1 (st.iter + 1)
          (expNames key values)) with
    | none => .error ("IndexError: empty candidate list")
    | some r =>
      .ok ⟨r.1, r.2, ⟨st.iter + 1, startDirty st key baseStyle,
            (expDiffFS fOr dOr L st baseStyle key values).1⟩,
          (expFmtFS fOr st baseStyle key values).2,
          (expDiffFS fOr dOr L st baseStyle key values).2⟩

/-- The option loop of `main` (lines 325-330).  In the source,
`experimentForOption` mutates the dict object `baseStyle` in place and returns
that same object; `main` binds the returned pair to the dead variable
`baseStype`, but since the mutation targets the very object `main`'s
`baseStyle` still references, the style seen by the next iteration (and by the
final print) is the returned one, which this embedding threads explicitly.
`prevScore` is rebound to the returned minimum on every iteration. -/
def runOptions (fOr : Style → List String)
    (dOr : List String → List String → List String) (L : List String) :
    List (String × List CandVal) → CacheState → Style → Nat → Except String RunResult
  | [], st, style, prev => .ok ⟨style, prev, st, 0, 0⟩
  | (key, values) :: rest, st, style, prev =>
    match experimentForOption fOr dOr L st style key values prev with
    | .error e => .error e
    | .ok r =>
      match runOptions fOr dOr L rest r.cache r.style r.prevScore with
      | .error e => .error e
      | .ok rr =>
        .ok ⟨rr.style, rr.prevScore, rr.cache,
             r.fmtCalls + rr.fmtCalls, r.diffCalls + rr.diffCalls⟩

/-- `main` (lines 317-336): assemble the canonical sample (`oldContent` is the
previous canonical copy's lines, `[]` when absent), construct the cache with
the sample's dirty flag and counter zero over the existing dump directory
`fs0`, and fold the options from an empty style with
`prevScore = numLines * 4`. -/
def runMain (fOr : Style → List String)
    (dOr : List String → List String → List String) (fs0 : FS)
    (oldContent : List String) (files : List (List String))
    (opts : List (String × List CandVal)) : Except String RunResult :=
  let inp := mkInputSC oldContent files
  runOptions fOr dOr inp.lines opts ⟨0, inp.dirty, fs0⟩ [] (inp.lines.length * 4)

instance : Inhabited RunResult := ⟨⟨[], 0, ⟨0, false, emptyFS⟩, 0, 0⟩⟩

/-- Project the payload out of a successful run (an arbitrary default
otherwise; used only under an `isOkB` hypothesis). -/
def getRes (e : Except String RunResult) : RunResult :=
  match e with
  | .ok r => r
  | .error _ => default

/-- Whether a run completed without a fatal error. -/
def isOkB (e : Except String RunResult) : Bool :=
  match e with
  | .ok _ => true
  | .error _ => false

/-- Reference definition following the spec's words for the selection and
acceptance step (spec 4.4 steps 5-6 and 8): `minScore` and `maxScore` are the
extrema of the candidates' scores, the winner is the first candidate in
candidate-list order attaining the minimal score, the option is skipped when
`minScore = maxScore` or `minScore ≥ prevScore`, and otherwise the style gains
`key ↦ winner`; the returned threshold is `minScore` either way. -/
def specSelect (bs : Style) (key : String) (prevScore : Nat)
    (results : List (Nat × String)) : Option (Style × Nat) :=
  match minScoreSpec (results.map (fun p => p.1)),
        maxScoreSpec (results.map (fun p => p.1)) with
  | some mn, some mx =>
    match results.find? (fun p => decide (p.1 = mn)) with
    | some w =>
      some (if mn = mx ∨ prevScore ≤ mn then bs else dictSet bs key w.2, mn)
    | none => none
  | _, _ => none

/-- The per-option experiment with the selection and acceptance step replaced
by the spec-worded `specSelect`; the cache and oracle mechanics are shared with
`experimentForOption`. -/
def specExperimentForOption (fOr : Style → List String)
    (dOr : List String → List String → List String) (L : List String)
    (st : CacheState) (baseStyle : Style) (key : String)
    (values : List CandVal) (prevScore : Nat) : Except String RunResult :=
  match (expNames key values).find?
      (fun v => !hasFmtCache (expFmtFS fOr st baseStyle key values).1 (st.iter + 1) v) with
  | some v => .error (fmtFatalMsg (st.iter + 1) v)
  | none =>
    match specSelect baseStyle key prevScore
        (scoreResults (expDiffFS fOr dOr L st baseStyle key values).1 (st.iter + 1)
          (expNames key values)) with
    | none => .error ("IndexError: empty candidate list")
    | some r =>
      .ok ⟨r.1, r.2, ⟨st.iter + 1, startDirty st key baseStyle,
            (expDiffFS fOr dOr L st baseStyle key values).1⟩,
          (expFmtFS fOr st baseStyle key values).2,
          (expDiffFS fOr dOr L st baseStyle key values).2⟩

/-- The option loop built on the spec-worded acceptance step, threading the
accumulated style and threshold of each option into the next. -/
def specRunOptions (fOr : Style → List String)
    (dOr : List String → List String → List String) (L : List String) :
    List (String × List CandVal) → CacheState → Style → Nat → Except String RunResult
  | [], st, style, prev => .ok ⟨style, prev, st, 0, 0⟩
  | (key, values) :: rest, st, style, prev =>
    match specExperimentForOption fOr dOr L st style key values prev with
    | .error e => .error e
    | .ok r =>
      match specRunOptions fOr dOr L rest r.cache r.style r.prevScore with
      | .error e => .error e
      | .ok rr =>
        .ok ⟨rr.style, rr.prevScore, rr.cache,
             r.fmtCalls + rr.fmtCalls, r.diffCalls + rr.diffCalls⟩

/-- Staleness condition exactly as claim C3 words it: the source sample was
dirty at cache construction, or a previously recorded signature for this
iteration slot exists and differs from the newly computed one. -/
def claimedStaleC3 (dirtyAtConstruction : Bool) (fs : FS) (i : Nat)
    (key : String) (bs : Style) : Bool :=
  dirtyAtConstruction ||
    (match sigAt fs i with
     | some s => !(decide (s = (key, bs)))
     | none => false)

/-- Every diff artifact stored in iteration directories `0..n` is non-empty
(an existing empty diff artifact fails the `getsize > 0` check of
`hasDiffCache` and would be recomputed). -/
def noEmptyDiffsUpTo (fs : FS) (n : Nat) : Bool :=
  (List.range (n + 1)).all
    (fun j =>
      match fs j with
      | some d => d.slots.all (fun p => !(decide (p.2.diffFile = some [])))
      | none => true)

/-- The directory of iteration `i` after `fsSet` is the one written. -/
theorem fsSet_self (fs : FS) (i : Nat) (d : IterDir) : fsSet fs i d i = some d := by
  simp [fsSet]

/-- `fsSet` leaves every other iteration directory unchanged. -/
theorem fsSet_other (fs : FS) (i j : Nat) (d : IterDir) (h : j ≠ i) :
    fsSet fs i d j = fs j := by
  simp [fsSet, h]

/-- Writing back the directory that is already stored changes nothing. -/
theorem fsSet_eq_self (fs : FS) (i : Nat) (d : IterDir) (h : fs i = some d) :
    fsSet fs i d = fs := by
  funext j
  by_cases hj : j = i
  · subst hj; simp [fsSet, h]
  · simp [fsSet, hj]

/-- Looking up the entry just written by `putSlot` yields it. -/
theorem find?_putSlot_self (l : List (String × CandidateSlot)) (v : String) (s : CandidateSlot) :
    (putSlot l v s).find? (fun p => decide (p.1 = v)) = some (v, s) := by
  induction l with
  | nil => simp [putSlot]
  | cons p t ih =>
    by_cases h : p.1 = v
    · simp [putSlot, h]
    · simp [putSlot, h, ih]

/-- `putSlot` does not disturb entries with a different name. -/
theorem find?_putSlot_other (l : List (String × CandidateSlot)) (v w : String)
    (s : CandidateSlot) (h : w ≠ v) :
    (putSlot l v s).find? (fun p => decide (p.1 = w)) = l.find? (fun p => decide (p.1 = w)) := by
  induction l with
  | nil => simp [putSlot, List.find?, Ne.symm h]
  | cons p t ih =>
    by_cases hp : p.1 = v
    · rw [putSlot, if_pos hp, List.find?_cons_of_neg _ (by simp [Ne.symm h]),
        List.find?_cons_of_neg _ (by simp [hp ▸ Ne.symm h])]
    · by_cases hw : p.1 = w
      · rw [putSlot, if_neg hp, List.find?_cons_of_pos _ (by simp [hw]),
          List.find?_cons_of_pos _ (by simp [hw])]
      · rw [putSlot, if_neg hp, List.find?_cons_of_neg _ (by simp [hw]),
          List.find?_cons_of_neg _ (by simp [hw]), ih]

/-- Writing back the slot already stored under `v` changes nothing. -/
theorem putSlot_eq_self (l : List (String × CandidateSlot)) (v : String) (s : CandidateSlot)
    (h : l.find? (fun p => decide (p.1 = v)) = some (v, s)) : putSlot l v s = l := by
  induction l with
  | nil => simp [List.find?] at h
  | cons p t ih =>
    by_cases hp : p.1 = v
    · rw [List.find?_cons_of_pos _ (by simp [hp])] at h
      injection h with h
      rw [putSlot, if_pos hp, ← h]
    · rw [List.find?_cons_of_neg _ (by simp [hp])] at h
      rw [putSlot, if_neg hp, ih h]

/-- Reading back the slot just written. -/
theorem getSlot_setSlot_self (d : IterDir) (v : String) (s : CandidateSlot) :
    getSlot (setSlot d v s) v = some s := by
  simp [getSlot, setSlot, find?_putSlot_self]

/-- Writing one candidate's slot leaves the other candidates' slots unchanged. -/
theorem getSlot_setSlot_other (d : IterDir) (v w : String) (s : CandidateSlot) (h : w ≠ v) :
    getSlot (setSlot d v s) w = getSlot d w := by
  show ((putSlot d.slots v s).find? (fun p => decide (p.1 = w))).map (fun p => p.2) =
    (d.slots.find? (fun p => decide (p.1 = w))).map (fun p => p.2)
  rw [find?_putSlot_other _ _ _ _ h]

/-- `setSlot` keeps the signature files. -/
theorem setSlot_sig (d : IterDir) (v : String) (s : CandidateSlot) :
    (setSlot d v s).sig = d.sig := rfl

/-- Writing back the stored slot changes nothing. -/
theorem setSlot_eq_self (d : IterDir) (v : String) (s : CandidateSlot)
    (h : getSlot d v = some s) : setSlot d v s = d := by
  unfold getSlot at h
  match hf : d.slots.find? (fun p => decide (p.1 = v)) with
  | none => rw [hf] at h; simp at h
  | some p =>
    rw [hf] at h
    simp at h
    have hv : p.1 = v := by simpa using List.find?_some hf
    have hp : p = (v, s) := by
      cases p
      simp_all
    cases d
    simp [setSlot, putSlot_eq_self _ _ _ (hp ▸ hf)]

/-- An existing slot means the iteration directory exists and contains it. -/
theorem slotAt_some_elim (fs : FS) (i : Nat) (v : String) (s : CandidateSlot)
    (h : slotAt fs i v = some s) : ∃ d, fs i = some d ∧ getSlot d v = some s := by
  unfold slotAt at h
  cases hd : fs i with
  | none => rw [hd] at h; exact absurd h (by simp)
  | some d => rw [hd] at h; exact ⟨d, rfl, h⟩

/-- The slot written by `modifySlot` when the slot exists. -/
theorem slotAt_modifySlot_self (fs : FS) (i : Nat) (v : String) (s : CandidateSlot)
    (f : CandidateSlot → CandidateSlot) (h : slotAt fs i v = some s) :
    slotAt (modifySlot fs i v f) i v = some (f s) := by
  obtain ⟨d, hd, hg⟩ := slotAt_some_elim _ _ _ _ h
  unfold slotAt modifySlot
  simp only [hd, hg, fsSet_self]
  exact getSlot_setSlot_self _ _ _

/-- `modifySlot` leaves other candidates' slots of the same iteration unchanged. -/
theorem slotAt_modifySlot_other (fs : FS) (i : Nat) (v w : String)
    (f : CandidateSlot → CandidateSlot) (h : w ≠ v) :
    slotAt (modifySlot fs i v f) i w = slotAt fs i w := by
  unfold slotAt modifySlot
  cases hd : fs i with
  | none => simp [hd]
  | some d =>
    cases hs : getSlot d v with
    | none => simp [hd, hs]
    | some s => simp [hd, hs, fsSet_self, getSlot_setSlot_other _ _ _ _ h]

/-- `modifySlot` leaves every other iteration directory unchanged. -/
theorem modifySlot_other_iter (fs : FS) (i j : Nat) (v : String)
    (f : CandidateSlot → CandidateSlot) (h : j ≠ i) :
    modifySlot fs i v f j = fs j := by
  unfold modifySlot
  cases hd : fs i with
  | none => rfl
  | some d =>
    cases hs : getSlot d v with
    | none => simp [hs]
    | some s =>
      simp only [hs]
      exact fsSet_other _ _ _ _ h

/-- `modifySlot` never touches the signature files of any iteration. -/
theorem sigAt_modifySlot (fs : FS) (i j : Nat) (v : String)
    (f : CandidateSlot → CandidateSlot) :
    sigAt (modifySlot fs i v f) j = sigAt fs j := by
  by_cases hj : j = i
  · subst hj
    unfold sigAt modifySlot
    cases hd : fs j with
    | none => simp [hd]
    | some d =>
      cases hs : getSlot d v with
      | none => simp [hs, hd]
      | some s => simp [hs, hd, fsSet_self, setSlot_sig]
  · unfold sigAt
    rw [modifySlot_other_iter _ _ _ _ _ hj]

/-- `modifySlot` of a missing slot is a no-op (unreachable in program flow). -/
theorem modifySlot_none (fs : FS) (i : Nat) (v : String)
    (f : CandidateSlot → CandidateSlot) (h : slotAt fs i v = none) :
    modifySlot fs i v f = fs := by
  unfold slotAt at h
  unfold modifySlot
  cases hd : fs i with
  | none => rfl
  | some d =>
    rw [hd] at h
    have h2 : getSlot d v = none := h
    show (match getSlot d v with
      | some s => fsSet fs i (setSlot d v (f s))
      | none => fs) = fs
    rw [h2]

/-- Rewriting a slot with the value it already holds changes nothing. -/
theorem modifySlot_eq_self (fs : FS) (i : Nat) (v : String) (s : CandidateSlot)
    (f : CandidateSlot → CandidateSlot) (h : slotAt fs i v = some s) (hf : f s = s) :
    modifySlot fs i v f = fs := by
  obtain ⟨d, hd, hg⟩ := slotAt_some_elim _ _ _ _ h
  unfold modifySlot
  simp only [hd, hg]
  rw [hf, setSlot_eq_self _ _ _ hg, fsSet_eq_self _ _ _ hd]

/-- `ensureIterFolder` leaves every other iteration unchanged. -/
theorem ensureIterFolder_other (fs : FS) (i j : Nat) (h : j ≠ i) :
    ensureIterFolder fs i j = fs j := by
  unfold ensureIterFolder
  cases hd : fs i with
  | some d => rfl
  | none => exact fsSet_other _ _ _ _ h

/-- Creating an empty iteration directory does not add signature files. -/
theorem sigAt_ensureIterFolder (fs : FS) (i : Nat) :
    sigAt (ensureIterFolder fs i) i = sigAt fs i := by
  unfold sigAt ensureIterFolder
  cases hd : fs i with
  | some d => simp [hd]
  | none => simp [hd, fsSet_self]

/-- `ensureIterFolder` of an existing directory changes nothing. -/
theorem ensureIterFolder_eq_self (fs : FS) (i : Nat) (d : IterDir) (h : fs i = some d) :
    ensureIterFolder fs i = fs := by
  unfold ensureIterFolder
  rw [h]

/-- After `ensureIterFolder`, the iteration directory exists. -/
theorem ensureIterFolder_isSome (fs : FS) (i : Nat) :
    ∃ d, ensureIterFolder fs i i = some d := by
  unfold ensureIterFolder
  cases hd : fs i with
  | some d => exact ⟨d, hd⟩
  | none => exact ⟨⟨none, []⟩, fsSet_self _ _ _⟩

/-- Writing the signature files leaves other iterations unchanged. -/
theorem setSig_other (fs : FS) (i j : Nat) (key : String) (bs : Style) (h : j ≠ i) :
    setSig fs i key bs j = fs j := by
  unfold setSig
  cases hd : fs i with
  | some d => exact fsSet_other _ _ _ _ h
  | none => exact fsSet_other _ _ _ _ h

/-- Reading back the signature just written. -/
theorem sigAt_setSig_self (fs : FS) (i : Nat) (key : String) (bs : Style) :
    sigAt (setSig fs i key bs) i = some (key, bs) := by
  unfold sigAt setSig
  cases hd : fs i with
  | some d => simp [fsSet_self]
  | none => simp [fsSet_self]

/-- Writing the signature files does not touch any candidate subdirectory. -/
theorem slotAt_setSig (fs : FS) (i : Nat) (key : String) (bs : Style) (v : String) :
    slotAt (setSig fs i key bs) i v = slotAt fs i v := by
  unfold slotAt setSig
  cases hd : fs i with
  | some d => simp [hd, fsSet_self]; rfl
  | none => simp [hd, fsSet_self]; rfl

/-- After `setSig`, the iteration directory exists. -/
theorem setSig_isSome (fs : FS) (i : Nat) (key : String) (bs : Style) :
    ∃ d, setSig fs i key bs i = some d := by
  unfold setSig
  cases hd : fs i with
  | some d => exact ⟨_, fsSet_self _ _ _⟩
  | none => exact ⟨_, fsSet_self _ _ _⟩

/-- `ensureSlotDir` leaves every other iteration unchanged. -/
theorem ensureSlotDir_other (fs : FS) (i j : Nat) (v : String) (h : j ≠ i) :
    ensureSlotDir fs i v j = fs j := by
  unfold ensureSlotDir
  cases hd : fs i with
  | none => rfl
  | some d =>
    cases hs : getSlot d v with
    | some s => simp [hs]
    | none =>
      simp only [hs]
      exact fsSet_other _ _ _ _ h

/-- `ensureSlotDir` does not touch signature files. -/
theorem sigAt_ensureSlotDir (fs : FS) (i j : Nat) (v : String) :
    sigAt (ensureSlotDir fs i v) j = sigAt fs j := by
  by_cases hj : j = i
  · subst hj
    unfold sigAt ensureSlotDir
    cases hd : fs j with
    | none => simp [hd]
    | some d =>
      cases hs : getSlot d v with
      | some s => simp [hs, hd]
      | none => simp [hs, hd, fsSet_self]
  · unfold sigAt
    rw [ensureSlotDir_other _ _ _ _ hj]

/-- Searching a listing extended by an entry the predicate rejects. -/
theorem find?_append_single (l : List (String × CandidateSlot))
    (p : String × CandidateSlot → Bool) (x : String × CandidateSlot) (h : p x = false) :
    (l ++ [x]).find? p = l.find? p := by
  rw [List.find?_append]
  cases hf : l.find? p with
  | some q => rfl
  | none => simp [List.find?, h]

/-- After `ensureSlotDir`, candidate `v` has a subdirectory: its previous one,
or a fresh empty one. -/
theorem slotAt_ensureSlotDir_self (fs : FS) (i : Nat) (v : String) (d : IterDir)
    (h : fs i = some d) :
    slotAt (ensureSlotDir fs i v) i v = some ((getSlot d v).getD CandidateSlot.empty) := by
  unfold slotAt ensureSlotDir
  cases hs : getSlot d v with
  | some s => simp [h, hs]
  | none =>
    have hf : d.slots.find? (fun p => decide (p.1 = v)) = none := by
      unfold getSlot at hs
      cases hfind : d.slots.find? (fun p => decide (p.1 = v)) with
      | none => rfl
      | some q => rw [hfind] at hs; simp at hs
    simp only [h, hs, fsSet_self, Option.getD_none]
    show ((d.slots ++ [(v, CandidateSlot.empty)]).find? (fun p => decide (p.1 = v))).map
      (fun p => p.2) = some CandidateSlot.empty
    rw [List.find?_append, hf]
    simp [List.find?]

/-- `ensureSlotDir` leaves other candidates' subdirectories unchanged. -/
theorem slotAt_ensureSlotDir_other (fs : FS) (i : Nat) (v w : String) (h : w ≠ v) :
    slotAt (ensureSlotDir fs i v) i w = slotAt fs i w := by
  unfold slotAt ensureSlotDir
  cases hd : fs i with
  | none => simp [hd]
  | some d =>
    cases hs : getSlot d v with
    | some s => simp [hd, hs]
    | none =>
      simp only [hd, hs, fsSet_self]
      show ((d.slots ++ [(v, CandidateSlot.empty)]).find? (fun p => decide (p.1 = w))).map
        (fun p => p.2) = getSlot d w
      rw [find?_append_single _ _ _ (by simp [Ne.symm h])]
      rfl

/-- `ensureSlotDir` of an existing subdirectory changes nothing. -/
theorem ensureSlotDir_eq_self (fs : FS) (i : Nat) (v : String) (s : CandidateSlot)
    (h : slotAt fs i v = some s) : ensureSlotDir fs i v = fs := by
  obtain ⟨d, hd, hg⟩ := slotAt_some_elim _ _ _ _ h
  unfold ensureSlotDir
  simp only [hd, hg]

/-- `ensureSlotDir` keeps the iteration directory existing. -/
theorem ensureSlotDir_isSome (fs : FS) (i : Nat) (v : String) (d : IterDir)
    (h : fs i = some d) : ∃ d2, ensureSlotDir fs i v i = some d2 := by
  unfold ensureSlotDir
  rw [h]
  cases hs : getSlot d v with
  | some s => simp only [hs]; exact ⟨d, h⟩
  | none => simp only [hs]; exact ⟨_, fsSet_self _ _ _⟩

/-- The candidate-directory creation loop leaves other iterations unchanged. -/
theorem ensureSlots_other (fs : FS) (i j : Nat) (names : List String) (h : j ≠ i) :
    ensureSlots fs i names j = fs j := by
  induction names generalizing fs with
  | nil => rfl
  | cons w t ih =>
    show ensureSlots (ensureSlotDir fs i w) i t j = fs j
    rw [ih, ensureSlotDir_other _ _ _ _ h]

/-- The candidate-directory creation loop does not touch signature files. -/
theorem sigAt_ensureSlots (fs : FS) (i j : Nat) (names : List String) :
    sigAt (ensureSlots fs i names) j = sigAt fs j := by
  induction names generalizing fs with
  | nil => rfl
  | cons w t ih =>
    show sigAt (ensureSlots (ensureSlotDir fs i w) i t) j = sigAt fs j
    rw [ih, sigAt_ensureSlotDir]

/-- The loop keeps the iteration directory existing. -/
theorem ensureSlots_isSome (fs : FS) (i : Nat) (names : List String) (d : IterDir)
    (h : fs i = some d) : ∃ d2, ensureSlots fs i names i = some d2 := by
  induction names generalizing fs d with
  | nil => exact ⟨d, h⟩
  | cons w t ih =>
    obtain ⟨d2, hd2⟩ := ensureSlotDir_isSome fs i w d h
    exact ih _ _ hd2

/-- An existing candidate subdirectory survives the loop untouched. -/
theorem slotAt_ensureSlots_of_some (fs : FS) (i : Nat) (names : List String)
    (v : String) (s : CandidateSlot) (h : slotAt fs i v = some s) :
    slotAt (ensureSlots fs i names) i v = some s := by
  induction names generalizing fs with
  | nil => exact h
  | cons w t ih =>
    show slotAt (ensureSlots (ensureSlotDir fs i w) i t) i v = some s
    by_cases hw : v = w
    · subst hw
      exact ih _ (by rw [ensureSlotDir_eq_self _ _ _ _ h]; exact h)
    · exact ih _ (by rw [slotAt_ensureSlotDir_other _ _ _ _ (by exact hw)]; exact h)

/-- After the loop, every listed candidate has a subdirectory. -/
theorem ensureSlots_mem (fs : FS) (i : Nat) (names : List String) (v : String)
    (d : IterDir) (hd : fs i = some d) (hv : v ∈ names) :
    ∃ s, slotAt (ensureSlots fs i names) i v = some s := by
  induction names generalizing fs d with
  | nil => cases hv
  | cons w t ih =>
    show ∃ s, slotAt (ensureSlots (ensureSlotDir fs i w) i t) i v = some s
    by_cases hvw : v = w
    · subst hvw
      exact ⟨(getSlot d v).getD CandidateSlot.empty,
        slotAt_ensureSlots_of_some _ _ _ _ _ (slotAt_ensureSlotDir_self _ _ _ _ hd)⟩
    · obtain ⟨d2, hd2⟩ := ensureSlotDir_isSome fs i w d hd
      have hv2 : v ∈ t := by
        cases hv with
        | head => exact absurd rfl hvw
        | tail _ hmem => exact hmem
      exact ih _ _ hd2 hv2

/-- The loop is the identity when every listed candidate already has a
subdirectory. -/
theorem ensureSlots_eq_self (fs : FS) (i : Nat) (names : List String)
    (h : ∀ v ∈ names, slotAt fs i v ≠ none) : ensureSlots fs i names = fs := by
  induction names generalizing fs with
  | nil => rfl
  | cons w t ih =>
    show ensureSlots (ensureSlotDir fs i w) i t = fs
    have hw := h w (by simp)
    cases hs : slotAt fs i w with
    | none => exact absurd hs hw
    | some s =>
      rw [ensureSlotDir_eq_self _ _ _ _ hs]
      exact ih _ (fun v hv => h v (by simp [hv]))

/-- Starting from a directory whose candidate subdirectories are all fresh (or
absent), the loop produces fresh empty subdirectories for all listed names. -/
theorem ensureSlots_fresh (fs : FS) (i : Nat) (names : List String) (v : String)
    (d : IterDir) (hd : fs i = some d)
    (hinv : ∀ w, slotAt fs i w = none ∨ slotAt fs i w = some CandidateSlot.empty)
    (hv : v ∈ names) :
    slotAt (ensureSlots fs i names) i v = some CandidateSlot.empty := by
  induction names generalizing fs d with
  | nil => cases hv
  | cons w t ih =>
    show slotAt (ensureSlots (ensureSlotDir fs i w) i t) i v = some CandidateSlot.empty
    have hws : slotAt (ensureSlotDir fs i w) i w = some CandidateSlot.empty := by
      have := slotAt_ensureSlotDir_self fs i w d hd
      rcases hinv w with hw | hw
      · rw [this]
        have h2 : getSlot d w = none := by
          unfold slotAt at hw
          rw [hd] at hw
          exact hw
        rw [h2]
        rfl
      · rw [this]
        have h2 : getSlot d w = some CandidateSlot.empty := by
          unfold slotAt at hw
          rw [hd] at hw
          exact hw
        rw [h2]
        rfl
    have hinv2 : ∀ u, slotAt (ensureSlotDir fs i w) i u = none ∨
        slotAt (ensureSlotDir fs i w) i u = some CandidateSlot.empty := by
      intro u
      by_cases huw : u = w
      · subst huw; exact Or.inr hws
      · rw [slotAt_ensureSlotDir_other _ _ _ _ (by exact huw)]
        exact hinv u
    obtain ⟨d2, hd2⟩ := ensureSlotDir_isSome fs i w d hd
    by_cases hvw : v = w
    · subst hvw
      exact slotAt_ensureSlots_of_some _ _ _ _ _ hws
    · have hv2 : v ∈ t := by
        cases hv with
        | head => exact absurd rfl hvw
        | tail _ hmem => exact hmem
      exact ih _ _ hd2 hinv2 hv2

/-- The dirty decision of `startIteration` in terms of the pre-existing
signature record: sticky flag, or signature record not matching (a missing
record never matches). -/
theorem startDirty_eq (st : CacheState) (key : String) (bs : Style) :
    startDirty st key bs =
      (st.cacheDirty || !(decide (sigAt st.fs (st.iter + 1) = some (key, bs)))) := by
  unfold startDirty
  rw [sigAt_ensureIterFolder]

/-- An existing signature means the iteration directory exists. -/
theorem sigAt_some_elim (fs : FS) (i : Nat) (s : String × Style)
    (h : sigAt fs i = some s) : ∃ d, fs i = some d ∧ d.sig = some s := by
  unfold sigAt at h
  cases hd : fs i with
  | none => rw [hd] at h; exact absurd h (by simp)
  | some d => rw [hd] at h; exact ⟨d, rfl, h⟩

/-- After `startIteration`, the recorded signature of the new iteration is the
newly computed one. -/
theorem startIteration_sig (st : CacheState) (key : String) (bs : Style)
    (names : List String) :
    sigAt (startFS st key bs names) (st.iter + 1) = some (key, bs) := by
  unfold startFS
  rw [sigAt_ensureSlots, sigAt_setSig_self]

/-- `startIteration` leaves every other iteration directory unchanged. -/
theorem startFS_other (st : CacheState) (key : String) (bs : Style)
    (names : List String) (j : Nat) (h : j ≠ st.iter + 1) :
    startFS st key bs names j = st.fs j := by
  unfold startFS
  rw [ensureSlots_other _ _ _ _ h, setSig_other _ _ _ _ _ h]
  split
  · rw [fsSet_other _ _ _ _ h, ensureIterFolder_other _ _ _ h]
  · rw [ensureIterFolder_other _ _ _ h]

/-- After `startIteration`, every listed candidate has a subdirectory. -/
theorem startFS_slots (st : CacheState) (key : String) (bs : Style)
    (names : List String) (v : String) (hv : v ∈ names) :
    ∃ s, slotAt (startFS st key bs names) (st.iter + 1) v = some s := by
  unfold startFS
  obtain ⟨d, hd⟩ := setSig_isSome
    (if startDirty st key bs then
      fsSet (ensureIterFolder st.fs (st.iter + 1)) (st.iter + 1) ⟨none, []⟩
     else ensureIterFolder st.fs (st.iter + 1)) (st.iter + 1) key bs
  exact ensureSlots_mem _ _ _ _ _ hd hv

/-- A directory's record equal to its own signature rebuilds it. -/
theorem sig_eta (d : IterDir) (s : String × Style) (h : d.sig = some s) :
    (⟨some s, d.slots⟩ : IterDir) = d := by
  cases d
  simp at h
  simp [h]

/-- A cache hit: when the flag is clear, the recorded signature matches, and
every listed candidate already has a subdirectory, `startIteration` changes
nothing but the counter. -/
theorem startIteration_warm (st : CacheState) (key : String) (bs : Style)
    (names : List String) (h0 : st.cacheDirty = false)
    (h1 : sigAt st.fs (st.iter + 1) = some (key, bs))
    (h2 : ∀ v ∈ names, slotAt st.fs (st.iter + 1) v ≠ none) :
    startIteration st key bs names = ⟨st.iter + 1, false, st.fs⟩ := by
  have hdirty : startDirty st key bs = false := by
    rw [startDirty_eq, h0, h1]
    simp
  have hfs : startFS st key bs names = st.fs := by
    unfold startFS
    rw [hdirty]
    simp only [Bool.false_eq_true, if_false]
    obtain ⟨d, hd, hsig⟩ := sigAt_some_elim _ _ _ h1
    rw [ensureIterFolder_eq_self _ _ _ hd]
    have hset : setSig st.fs (st.iter + 1) key bs = st.fs := by
      unfold setSig
      rw [hd]
      show fsSet st.fs (st.iter + 1) ⟨some (key, bs), d.slots⟩ = st.fs
      rw [sig_eta d (key, bs) hsig, fsSet_eq_self _ _ _ hd]
    rw [hset]
    exact ensureSlots_eq_self _ _ _ h2
  unfold startIteration
  rw [hdirty, hfs]

/-- A stale iteration is wiped: afterwards every listed candidate subdirectory
is freshly empty. -/
theorem startIteration_fresh (st : CacheState) (key : String) (bs : Style)
    (names : List String) (hdirty : startDirty st key bs = true) (v : String)
    (hv : v ∈ names) :
    slotAt (startFS st key bs names) (st.iter + 1) v = some CandidateSlot.empty := by
  unfold startFS
  rw [hdirty]
  simp only [if_true]
  have hd2 : setSig (fsSet (ensureIterFolder st.fs (st.iter + 1)) (st.iter + 1) ⟨none, []⟩)
      (st.iter + 1) key bs (st.iter + 1) = some ⟨some (key, bs), []⟩ := by
    unfold setSig
    rw [fsSet_self]
    exact fsSet_self _ _ _
  have hinv : ∀ w, slotAt (setSig
        (fsSet (ensureIterFolder st.fs (st.iter + 1)) (st.iter + 1) ⟨none, []⟩)
        (st.iter + 1) key bs) (st.iter + 1) w = none ∨
      slotAt (setSig (fsSet (ensureIterFolder st.fs (st.iter + 1)) (st.iter + 1) ⟨none, []⟩)
        (st.iter + 1) key bs) (st.iter + 1) w = some CandidateSlot.empty := by
    intro w
    left
    unfold slotAt
    rw [hd2]
    rfl
  exact ensureSlots_fresh _ _ _ _ _ hd2 hinv hv

/-- All candidate lookups depend only on the addressed iteration directory. -/
theorem slotAt_congr (fs fs2 : FS) (i : Nat) (v : String) (h : fs i = fs2 i) :
    slotAt fs i v = slotAt fs2 i v := by
  unfold slotAt
  rw [h]

/-- Signature lookups depend only on the addressed iteration directory. -/
theorem sigAt_congr (fs fs2 : FS) (i : Nat) (h : fs i = fs2 i) :
    sigAt fs i = sigAt fs2 i := by
  unfold sigAt
  rw [h]

/-- Diff artifact contents depend only on the addressed iteration directory. -/
theorem diffLinesAt_congr (fs fs2 : FS) (i : Nat) (v : String) (h : fs i = fs2 i) :
    diffLinesAt fs i v = diffLinesAt fs2 i v := by
  unfold diffLinesAt
  rw [slotAt_congr _ _ _ _ h]

/-- Scores depend only on the addressed iteration directory. -/
theorem scoreResults_congr (fs fs2 : FS) (i : Nat) (names : List String)
    (h : fs i = fs2 i) : scoreResults fs i names = scoreResults fs2 i names := by
  unfold scoreResults
  exact List.map_congr_left (fun v _ => by rw [diffLinesAt_congr _ _ _ _ h])

/-- Unpack a positive formatted-artifact cache check. -/
theorem hasFmtCache_elim (fs : FS) (i : Nat) (v : String)
    (h : hasFmtCache fs i v = true) :
    ∃ s F, slotAt fs i v = some s ∧ s.fmtFile = some F ∧ F ≠ [] := by
  unfold hasFmtCache at h
  cases hs : slotAt fs i v with
  | none => rw [hs] at h; simp at h
  | some s =>
    rw [hs] at h
    have h2 : (match s.fmtFile with | some ls => !ls.isEmpty | none => false) = true := h
    cases hf : s.fmtFile with
    | none => rw [hf] at h2; simp at h2
    | some F =>
      rw [hf] at h2
      have h3 : (!F.isEmpty) = true := h2
      refine ⟨s, F, rfl, hf, ?_⟩
      simp only [Bool.not_eq_true'] at h3
      exact fun hF => by simp [hF] at h3

/-- Unpack a positive diff-artifact cache check. -/
theorem hasDiffCache_elim (fs : FS) (i : Nat) (v : String)
    (h : hasDiffCache fs i v = true) :
    ∃ s D, slotAt fs i v = some s ∧ s.diffFile = some D ∧ D ≠ [] := by
  unfold hasDiffCache at h
  cases hs : slotAt fs i v with
  | none => rw [hs] at h; simp at h
  | some s =>
    rw [hs] at h
    have h2 : (match s.diffFile with | some ls => !ls.isEmpty | none => false) = true := h
    cases hf : s.diffFile with
    | none => rw [hf] at h2; simp at h2
    | some D =>
      rw [hf] at h2
      have h3 : (!D.isEmpty) = true := h2
      refine ⟨s, D, rfl, hf, ?_⟩
      simp only [Bool.not_eq_true'] at h3
      exact fun hD => by simp [hD] at h3

/-- A failed diff cache check on an existing artifact means it is empty. -/
theorem hasDiffCache_false_elim (fs : FS) (i : Nat) (v : String) (s : CandidateSlot)
    (D : List String) (hs : slotAt fs i v = some s) (hD : s.diffFile = some D)
    (h : hasDiffCache fs i v = false) : D = [] := by
  unfold hasDiffCache at h
  rw [hs] at h
  have h2 : (match s.diffFile with | some ls => !ls.isEmpty | none => false) = false := h
  rw [hD] at h2
  have h3 : (!D.isEmpty) = false := h2
  by_cases hE : D = []
  · exact hE
  · simp [hE] at h3

/-- A positive fmt check survives any same-iteration write to another slot or
to the diff artifact of the same slot. -/
theorem hasFmtCache_congr (fs fs2 : FS) (i : Nat) (v : String) (h : fs i = fs2 i) :
    hasFmtCache fs i v = hasFmtCache fs2 i v := by
  unfold hasFmtCache
  rw [slotAt_congr _ _ _ _ h]

/-- One step of the formatter batch leaves other iterations unchanged. -/
theorem fmtStep_other (fOr : Style → List String) (i j : Nat) (bs : Style)
    (acc : FS × Nat) (p : String × Style) (h : j ≠ i) :
    (fmtStep fOr i bs acc p).1 j = acc.1 j := by
  unfold fmtStep
  split
  · rfl
  · show modifySlot (writeStyleFile acc.1 i p.1 (dictUpdate bs p.2)) i p.1 _ j = acc.1 j
    rw [modifySlot_other_iter _ _ _ _ _ h]
    unfold writeStyleFile
    rw [modifySlot_other_iter _ _ _ _ _ h]

/-- One step of the formatter batch does not touch signature files. -/
theorem fmtStep_sig (fOr : Style → List String) (i j : Nat) (bs : Style)
    (acc : FS × Nat) (p : String × Style) :
    sigAt (fmtStep fOr i bs acc p).1 j = sigAt acc.1 j := by
  unfold fmtStep
  split
  · rfl
  · show sigAt (modifySlot (writeStyleFile acc.1 i p.1 (dictUpdate bs p.2)) i p.1 _) j = _
    rw [sigAt_modifySlot]
    unfold writeStyleFile
    rw [sigAt_modifySlot]

/-- The formatter batch leaves other iterations unchanged. -/
theorem fmtPhase_fold_other (fOr : Style → List String) (i j : Nat) (bs : Style)
    (pairs : List (String × Style)) (acc : FS × Nat) (h : j ≠ i) :
    (pairs.foldl (fmtStep fOr i bs) acc).1 j = acc.1 j := by
  induction pairs generalizing acc with
  | nil => rfl
  | cons p t ih =>
    show (t.foldl (fmtStep fOr i bs) (fmtStep fOr i bs acc p)).1 j = acc.1 j
    rw [ih, fmtStep_other _ _ _ _ _ _ h]

/-- The formatter batch does not touch signature files. -/
theorem fmtPhase_fold_sig (fOr : Style → List String) (i j : Nat) (bs : Style)
    (pairs : List (String × Style)) (acc : FS × Nat) :
    sigAt (pairs.foldl (fmtStep fOr i bs) acc).1 j = sigAt acc.1 j := by
  induction pairs generalizing acc with
  | nil => rfl
  | cons p t ih =>
    show sigAt (t.foldl (fmtStep fOr i bs) (fmtStep fOr i bs acc p)).1 j = _
    rw [ih, fmtStep_sig]

/-- When every candidate's formatted artifact is cached, the batch does
nothing and performs zero invocations. -/
theorem fmtPhase_warm (fOr : Style → List String) (i : Nat) (bs : Style)
    (pairs : List (String × Style)) (fs : FS) (n : Nat)
    (h : ∀ p ∈ pairs, hasFmtCache fs i p.1 = true) :
    pairs.foldl (fmtStep fOr i bs) (fs, n) = (fs, n) := by
  induction pairs generalizing n with
  | nil => rfl
  | cons p t ih =>
    show t.foldl (fmtStep fOr i bs) (fmtStep fOr i bs (fs, n) p) = (fs, n)
    have hp : fmtStep fOr i bs (fs, n) p = (fs, n) := by
      unfold fmtStep
      rw [h p (by simp)]
      simp
    rw [hp]
    exact ih n (fun q hq => h q (by simp [hq]))

/-- One step of the diff batch leaves other iterations unchanged. -/
theorem diffStep_other (dOr : List String → List String → List String)
    (L : List String) (i j : Nat) (acc : FS × Nat) (v : String) (h : j ≠ i) :
    (diffStep dOr L i acc v).1 j = acc.1 j := by
  unfold diffStep
  split
  · rfl
  · show modifySlot acc.1 i v _ j = acc.1 j
    rw [modifySlot_other_iter _ _ _ _ _ h]

/-- One step of the diff batch does not touch signature files. -/
theorem diffStep_sig (dOr : List String → List String → List String)
    (L : List String) (i j : Nat) (acc : FS × Nat) (v : String) :
    sigAt (diffStep dOr L i acc v).1 j = sigAt acc.1 j := by
  unfold diffStep
  split
  · rfl
  · show sigAt (modifySlot acc.1 i v _) j = _
    rw [sigAt_modifySlot]

/-- One step of the diff batch leaves other candidates' slots unchanged. -/
theorem diffStep_slot_other (dOr : List String → List String → List String)
    (L : List String) (i : Nat) (acc : FS × Nat) (v w : String) (h : w ≠ v) :
    slotAt (diffStep dOr L i acc v).1 i w = slotAt acc.1 i w := by
  unfold diffStep
  split
  · rfl
  · show slotAt (modifySlot acc.1 i v _) i w = _
    rw [slotAt_modifySlot_other _ _ _ _ _ h]

/-- The diff batch leaves other iterations unchanged. -/
theorem diffPhase_fold_other (dOr : List String → List String → List String)
    (L : List String) (i j : Nat) (names : List String) (acc : FS × Nat) (h : j ≠ i) :
    (names.foldl (diffStep dOr L i) acc).1 j = acc.1 j := by
  induction names generalizing acc with
  | nil => rfl
  | cons v t ih =>
    show (t.foldl (diffStep dOr L i) (diffStep dOr L i acc v)).1 j = acc.1 j
    rw [ih, diffStep_other _ _ _ _ _ _ h]

/-- The diff batch does not touch signature files. -/
theorem diffPhase_fold_sig (dOr : List String → List String → List String)
    (L : List String) (i j : Nat) (names : List String) (acc : FS × Nat) :
    sigAt (names.foldl (diffStep dOr L i) acc).1 j = sigAt acc.1 j := by
  induction names generalizing acc with
  | nil => rfl
  | cons v t ih =>
    show sigAt (t.foldl (diffStep dOr L i) (diffStep dOr L i acc v)).1 j = _
    rw [ih, diffStep_sig]

/-- The diff batch leaves the slots of unlisted candidates unchanged. -/
theorem diffPhase_fold_slot_other (dOr : List String → List String → List String)
    (L : List String) (i : Nat) (names : List String) (acc : FS × Nat) (w : String)
    (h : w ∉ names) :
    slotAt (names.foldl (diffStep dOr L i) acc).1 i w = slotAt acc.1 i w := by
  induction names generalizing acc with
  | nil => rfl
  | cons v t ih =>
    show slotAt (t.foldl (diffStep dOr L i) (diffStep dOr L i acc v)).1 i w = _
    rw [ih _ (fun hw => h (by simp [hw])),
      diffStep_slot_other _ _ _ _ _ _ (fun hw => h (by simp [hw]))]

/-- Replacing a slot field with the value it already holds is the identity. -/
theorem slot_diff_eta (s : CandidateSlot) (D : List String) (h : s.diffFile = some D) :
    { s with diffFile := some D } = s := by
  cases s
  simp at h
  simp [h]

/-- The warm diff batch: when every candidate already has a diff artifact that
is either non-empty (a cache hit) or empty with the diff oracle reproducing
exactly that empty output, the batch leaves the dump directory unchanged. -/
theorem diffPhase_warm_fs (dOr : List String → List String → List String)
    (L : List String) (i : Nat) (names : List String) (fs : FS) (n : Nat)
    (h : ∀ v ∈ names, ∃ s D, slotAt fs i v = some s ∧ s.diffFile = some D ∧
      (D = [] → dOr L (s.fmtFile.getD []) = [])) :
    (names.foldl (diffStep dOr L i) (fs, n)).1 = fs := by
  induction names generalizing n with
  | nil => rfl
  | cons v t ih =>
    show (t.foldl (diffStep dOr L i) (diffStep dOr L i (fs, n) v)).1 = fs
    obtain ⟨s, D, hs, hD, hDe⟩ := h v (by simp)
    have hstep : (diffStep dOr L i (fs, n) v).1 = fs := by
      unfold diffStep
      cases hdc : hasDiffCache fs i v with
      | true => simp [hdc]
      | false =>
        simp only [hdc, Bool.false_eq_true, if_false]
        have hDnil : D = [] := hasDiffCache_false_elim _ _ _ _ _ hs hD hdc
        have hfmt : fmtLinesAt fs i v = s.fmtFile.getD [] := by
          unfold fmtLinesAt
          rw [hs]
        show setDiffFile fs i v (dOr L (fmtLinesAt fs i v)) = fs
        rw [hfmt]
        unfold setDiffFile
        refine modifySlot_eq_self _ _ _ s _ hs ?_
        rw [hDe hDnil]
        exact slot_diff_eta s [] (by rw [hD, hDnil])
    rcases hacc : diffStep dOr L i (fs, n) v with ⟨fs2, n2⟩
    have hfs2 : fs2 = fs := by rw [← hstep, hacc]
    rw [hfs2]
    exact ih n2 (fun w hw => h w (by simp [hw]))

/-- When every candidate's diff artifact is cached non-empty, the diff batch
does nothing and performs zero invocations. -/
theorem diffPhase_warm_all (dOr : List String → List String → List String)
    (L : List String) (i : Nat) (names : List String) (fs : FS) (n : Nat)
    (h : ∀ v ∈ names, hasDiffCache fs i v = true) :
    names.foldl (diffStep dOr L i) (fs, n) = (fs, n) := by
  induction names generalizing n with
  | nil => rfl
  | cons v t ih =>
    show t.foldl (diffStep dOr L i) (diffStep dOr L i (fs, n) v) = (fs, n)
    have hp : diffStep dOr L i (fs, n) v = (fs, n) := by
      unfold diffStep
      rw [h v (by simp)]
      simp
    rw [hp]
    exact ih n (fun w hw => h w (by simp [hw]))

/-- Posterior of the diff batch: every listed candidate (names distinct, all
with non-empty formatted artifacts) ends with its formatted artifact intact and
some diff artifact; an empty diff artifact can only be the diff oracle's own
output on the stored formatted content. -/
theorem diffPhase_post (dOr : List String → List String → List String)
    (L : List String) (i : Nat) (names : List String) (fs : FS) (n : Nat)
    (hnodup : names.Nodup)
    (h : ∀ v ∈ names, hasFmtCache fs i v = true) :
    ∀ v ∈ names, ∃ s F D, slotAt (names.foldl (diffStep dOr L i) (fs, n)).1 i v = some s ∧
      s.fmtFile = some F ∧ F ≠ [] ∧ s.diffFile = some D ∧ (D = [] → dOr L F = []) := by
  induction names generalizing fs n with
  | nil => intro v hv; cases hv
  | cons w t ih =>
    intro v hv
    show ∃ s F D, slotAt (t.foldl (diffStep dOr L i) (diffStep dOr L i (fs, n) w)).1 i v =
      some s ∧ s.fmtFile = some F ∧ F ≠ [] ∧ s.diffFile = some D ∧ (D = [] → dOr L F = [])
    obtain ⟨sw, Fw, hsw, hFw, hFwne⟩ := hasFmtCache_elim _ _ _ (h w (by simp))
    have hwpost : ∃ s F D, slotAt (diffStep dOr L i (fs, n) w).1 i w = some s ∧
        s.fmtFile = some F ∧ F ≠ [] ∧ s.diffFile = some D ∧ (D = [] → dOr L F = []) := by
      unfold diffStep
      cases hdc : hasDiffCache fs i w with
      | true =>
        obtain ⟨s2, D2, hs2, hD2, hD2ne⟩ := hasDiffCache_elim _ _ _ hdc
        have hseq : s2 = sw := by
          rw [hs2] at hsw
          exact Option.some.inj hsw
        subst hseq
        simp only [hdc, if_true]
        exact ⟨s2, Fw, D2, hs2, hFw, hFwne, hD2, fun hnil => absurd hnil hD2ne⟩
      | false =>
        simp only [hdc, Bool.false_eq_true, if_false]
        have hfmt : fmtLinesAt fs i w = Fw := by
          unfold fmtLinesAt
          rw [hsw]
          show sw.fmtFile.getD [] = Fw
          rw [hFw]
          rfl
        show ∃ s F D, slotAt (setDiffFile fs i w (dOr L (fmtLinesAt fs i w))) i w = some s ∧
          s.fmtFile = some F ∧ F ≠ [] ∧ s.diffFile = some D ∧ (D = [] → dOr L F = [])
        unfold setDiffFile
        rw [hfmt]
        exact ⟨{ sw with diffFile := some (dOr L Fw) }, Fw, dOr L Fw,
          slotAt_modifySlot_self _ _ _ _ _ hsw, hFw, hFwne, rfl, fun hnil => hnil⟩
    have hslots2 : ∀ u ∈ t, hasFmtCache (diffStep dOr L i (fs, n) w).1 i u = true := by
      intro u hu
      have hne : u ≠ w := by
        intro hEq
        subst hEq
        exact (List.nodup_cons.mp hnodup).1 hu
      have hpres : slotAt (diffStep dOr L i (fs, n) w).1 i u = slotAt fs i u :=
        diffStep_slot_other _ _ _ _ _ _ hne
      unfold hasFmtCache
      rw [hpres]
      exact h u (by simp [hu])
    rcases List.mem_cons.mp hv with hveq | hvt
    · subst hveq
      obtain ⟨s, F, D, hs, hF, hFne, hD, hDe⟩ := hwpost
      refine ⟨s, F, D, ?_, hF, hFne, hD, hDe⟩
      rw [diffPhase_fold_slot_other _ _ _ _ _ _ (List.nodup_cons.mp hnodup).1]
      exact hs
    · exact ih (diffStep dOr L i (fs, n) w).1 (diffStep dOr L i (fs, n) w).2
        (List.nodup_cons.mp hnodup).2 hslots2 v hvt

/-- A dict assignment never duplicates keys. -/
theorem assocSet_keys_nodup {α : Type} (m : List (String × α)) (k : String) (v : α)
    (h : (m.map (fun p => p.1)).Nodup) :
    ((assocSet m k v).map (fun p => p.1)).Nodup := by
  unfold assocSet
  by_cases hany : m.any (fun p => decide (p.1 = k)) = true
  · rw [if_pos hany, List.map_map]
    have heq : (m.map ((fun p => p.1) ∘ fun p => if p.1 = k then (k, v) else p)) =
        m.map (fun p => p.1) :=
      List.map_congr_left (fun p _ => by by_cases hp : p.1 = k <;> simp [hp])
    rw [heq]
    exact h
  · rw [if_neg hany, List.map_append]
    have hk : k ∉ m.map (fun p => p.1) := by
      intro hmem
      obtain ⟨p, hp, hpk⟩ := List.mem_map.mp hmem
      exact hany (List.any_eq_true.mpr ⟨p, hp, by simp [hpk]⟩)
    simp [List.nodup_append, h, hk]

/-- The candidate names of one option are distinct (they are Python dict
keys). -/
theorem expNames_nodup (key : String) (values : List CandVal) :
    (expNames key values).Nodup := by
  unfold expNames valNamesAndStyles
  suffices hgen : ∀ m : List (String × Style), (m.map (fun p => p.1)).Nodup →
      (((values.foldl (fun m v =>
        match v with
        | .plain s => assocSet m s [(key, s)]
        | .named n ov => assocSet m n ov) m)).map (fun p => p.1)).Nodup by
    exact hgen [] (by simp)
  induction values with
  | nil => intro m hm; exact hm
  | cons c t ih =>
    intro m hm
    cases c with
    | plain s => exact ih _ (assocSet_keys_nodup _ _ _ hm)
    | named n ov => exact ih _ (assocSet_keys_nodup _ _ _ hm)

/-- Decompose a successful `experimentForOption`: the fatal check passed, the
selection step succeeded, and the result's fields are the phase outputs. -/
theorem experiment_ok_elim (fOr : Style → List String)
    (dOr : List String → List String → List String) (L : List String)
    (st : CacheState) (bs : Style) (key : String) (values : List CandVal)
    (prev : Nat) (r : RunResult)
    (h : experimentForOption fOr dOr L st bs key values prev = .ok r) :
    (expNames key values).find?
      (fun v => !hasFmtCache (expFmtFS fOr st bs key values).1 (st.iter + 1) v) = none ∧
    selectOutcome bs key prev
      (scoreResults (expDiffFS fOr dOr L st bs key values).1 (st.iter + 1)
        (expNames key values)) = some (r.style, r.prevScore) ∧
    r.cache = ⟨st.iter + 1, startDirty st key bs, (expDiffFS fOr dOr L st bs key values).1⟩ ∧
    r.fmtCalls = (expFmtFS fOr st bs key values).2 ∧
    r.diffCalls = (expDiffFS fOr dOr L st bs key values).2 := by
  unfold experimentForOption at h
  cases hfind : (expNames key values).find?
      (fun v => !hasFmtCache (expFmtFS fOr st bs key values).1 (st.iter + 1) v) with
  | some v => rw [hfind] at h; exact absurd h (by simp)
  | none =>
    rw [hfind] at h
    cases hsel : selectOutcome bs key prev
        (scoreResults (expDiffFS fOr dOr L st bs key values).1 (st.iter + 1)
          (expNames key values)) with
    | none => rw [hsel] at h; exact absurd h (by simp)
    | some rr =>
      rw [hsel] at h
      have hr : r = ⟨rr.1, rr.2, ⟨st.iter + 1, startDirty st key bs,
          (expDiffFS fOr dOr L st bs key values).1⟩,
          (expFmtFS fOr st bs key values).2,
          (expDiffFS fOr dOr L st bs key values).2⟩ := by
        have := Except.ok.inj h
        exact this.symm
      subst hr
      exact ⟨rfl, rfl, rfl, rfl, rfl⟩

/-- A successful experiment only writes inside the new iteration's directory. -/
theorem experiment_frame (fOr : Style → List String)
    (dOr : List String → List String → List String) (L : List String)
    (st : CacheState) (bs : Style) (key : String) (values : List CandVal)
    (prev : Nat) (r : RunResult) (j : Nat)
    (h : experimentForOption fOr dOr L st bs key values prev = .ok r)
    (hj : j ≠ st.iter + 1) : r.cache.fs j = st.fs j := by
  obtain ⟨-, -, hcache, -, -⟩ := experiment_ok_elim _ _ _ _ _ _ _ _ _ h
  rw [hcache]
  show (expDiffFS fOr dOr L st bs key values).1 j = st.fs j
  unfold expDiffFS diffPhase
  rw [diffPhase_fold_other _ _ _ _ _ _ hj]
  show (expFmtFS fOr st bs key values).1 j = st.fs j
  unfold expFmtFS fmtPhase
  rw [fmtPhase_fold_other _ _ _ _ _ _ hj]
  exact startFS_other _ _ _ _ _ hj

/-- A successful experiment leaves the new iteration's signature files holding
the newly computed signature. -/
theorem experiment_sig (fOr : Style → List String)
    (dOr : List String → List String → List String) (L : List String)
    (st : CacheState) (bs : Style) (key : String) (values : List CandVal)
    (prev : Nat) (r : RunResult)
    (h : experimentForOption fOr dOr L st bs key values prev = .ok r) :
    sigAt r.cache.fs (st.iter + 1) = some (key, bs) := by
  obtain ⟨-, -, hcache, -, -⟩ := experiment_ok_elim _ _ _ _ _ _ _ _ _ h
  rw [hcache]
  show sigAt (expDiffFS fOr dOr L st bs key values).1 (st.iter + 1) = some (key, bs)
  unfold expDiffFS diffPhase
  rw [diffPhase_fold_sig]
  show sigAt (expFmtFS fOr st bs key values).1 (st.iter + 1) = some (key, bs)
  unfold expFmtFS fmtPhase
  rw [fmtPhase_fold_sig]
  exact startIteration_sig _ _ _ _

/-- Posterior of a successful experiment at its own iteration: every candidate
slot holds a non-empty formatted artifact and some diff artifact, an empty one
being the diff oracle's own output on that formatted artifact. -/
theorem experiment_post (fOr : Style → List String)
    (dOr : List String → List String → List String) (L : List String)
    (st : CacheState) (bs : Style) (key : String) (values : List CandVal)
    (prev : Nat) (r : RunResult)
    (h : experimentForOption fOr dOr L st bs key values prev = .ok r) :
    ∀ v ∈ expNames key values, ∃ s F D,
      slotAt r.cache.fs (st.iter + 1) v = some s ∧ s.fmtFile = some F ∧ F ≠ [] ∧
      s.diffFile = some D ∧ (D = [] → dOr L F = []) := by
  obtain ⟨hfind, -, hcache, -, -⟩ := experiment_ok_elim _ _ _ _ _ _ _ _ _ h
  have hall : ∀ v ∈ expNames key values,
      hasFmtCache (expFmtFS fOr st bs key values).1 (st.iter + 1) v = true := by
    intro v hv
    have := List.find?_eq_none.mp hfind v hv
    simpa using this
  rw [hcache]
  show ∀ v ∈ expNames key values, ∃ s F D,
    slotAt (expDiffFS fOr dOr L st bs key values).1 (st.iter + 1) v = some s ∧
    s.fmtFile = some F ∧ F ≠ [] ∧ s.diffFile = some D ∧ (D = [] → dOr L F = [])
  unfold expDiffFS diffPhase
  exact diffPhase_post _ _ _ _ _ _ (expNames_nodup key values) hall

/-- Build a positive formatted-artifact cache check. -/
theorem hasFmtCache_intro (fs : FS) (i : Nat) (v : String) (s : CandidateSlot)
    (F : List String) (hs : slotAt fs i v = some s) (hF : s.fmtFile = some F)
    (hne : F ≠ []) : hasFmtCache fs i v = true := by
  unfold hasFmtCache
  rw [hs]
  show (match s.fmtFile with | some ls => !ls.isEmpty | none => false) = true
  rw [hF]
  show (!F.isEmpty) = true
  simp [hne]

/-- Build a positive diff-artifact cache check. -/
theorem hasDiffCache_intro (fs : FS) (i : Nat) (v : String) (s : CandidateSlot)
    (D : List String) (hs : slotAt fs i v = some s) (hD : s.diffFile = some D)
    (hne : D ≠ []) : hasDiffCache fs i v = true := by
  unfold hasDiffCache
  rw [hs]
  show (match s.diffFile with | some ls => !ls.isEmpty | none => false) = true
  rw [hD]
  show (!D.isEmpty) = true
  simp [hne]

/-- The warm-cache hypothesis for one iteration: every candidate has a
non-empty formatted artifact, and a diff artifact that is non-empty or equal to
the diff oracle's output on the stored formatted content. -/
def iterWarm (dOr : List String → List String → List String) (L : List String)
    (fs : FS) (i : Nat) (names : List String) : Prop :=
  ∀ v ∈ names, ∃ s F D, slotAt fs i v = some s ∧ s.fmtFile = some F ∧ F ≠ [] ∧
    s.diffFile = some D ∧ (D = [] → dOr L F = [])

/-- A warm iteration with a matching signature replays without touching the
dump directory and without formatter invocations: the run proceeds from the
cached artifacts alone. -/
theorem experiment_warm (fOr : Style → List String)
    (dOr : List String → List String → List String) (L : List String)
    (i0 : Nat) (fs : FS) (bs : Style) (key : String) (values : List CandVal)
    (prev : Nat) (hsig : sigAt fs (i0 + 1) = some (key, bs))
    (hw : iterWarm dOr L fs (i0 + 1) (expNames key values)) :
    (expFmtFS fOr ⟨i0, false, fs⟩ bs key values) = (fs, 0) ∧
    (expDiffFS fOr dOr L ⟨i0, false, fs⟩ bs key values).1 = fs ∧
    startDirty ⟨i0, false, fs⟩ key bs = false ∧
    experimentForOption fOr dOr L ⟨i0, false, fs⟩ bs key values prev =
      (match selectOutcome bs key prev (scoreResults fs (i0 + 1) (expNames key values)) with
       | none => Except.error ("IndexError: empty candidate list")
       | some rsel => Except.ok ⟨rsel.1, rsel.2, ⟨i0 + 1, false, fs⟩, 0,
           (expDiffFS fOr dOr L ⟨i0, false, fs⟩ bs key values).2⟩) := by
  have hst : startIteration ⟨i0, false, fs⟩ key bs (expNames key values) =
      ⟨i0 + 1, false, fs⟩ := by
    apply startIteration_warm
    · rfl
    · exact hsig
    · intro v hv
      obtain ⟨s, F, D, hs, -⟩ := hw v hv
      rw [hs]
      simp
  have hdirty : startDirty ⟨i0, false, fs⟩ key bs = false :=
    congrArg CacheState.cacheDirty hst
  have hsfs : startFS ⟨i0, false, fs⟩ key bs (expNames key values) = fs :=
    congrArg CacheState.fs hst
  have hallfmt : ∀ v ∈ expNames key values, hasFmtCache fs (i0 + 1) v = true := by
    intro v hv
    obtain ⟨s, F, D, hs, hF, hFne, -⟩ := hw v hv
    exact hasFmtCache_intro _ _ _ _ _ hs hF hFne
  have hfmt : expFmtFS fOr ⟨i0, false, fs⟩ bs key values = (fs, 0) := by
    unfold expFmtFS
    show fmtPhase fOr (i0 + 1) bs (valNamesAndStyles key values)
      (startFS ⟨i0, false, fs⟩ key bs (expNames key values)) = (fs, 0)
    rw [hsfs]
    unfold fmtPhase
    apply fmtPhase_warm
    intro p hp
    exact hallfmt p.1 (List.mem_map.mpr ⟨p, hp, rfl⟩)
  have hdiff : (expDiffFS fOr dOr L ⟨i0, false, fs⟩ bs key values).1 = fs := by
    unfold expDiffFS
    rw [hfmt]
    show (diffPhase dOr L (i0 + 1) (expNames key values) fs).1 = fs
    unfold diffPhase
    apply diffPhase_warm_fs
    intro v hv
    obtain ⟨s, F, D, hs, hF, hFne, hD, hDe⟩ := hw v hv
    exact ⟨s, D, hs, hD, fun hnil => by
      have : s.fmtFile.getD [] = F := by rw [hF]; rfl
      rw [this]
      exact hDe hnil⟩
  refine ⟨hfmt, hdiff, hdirty, ?_⟩
  unfold experimentForOption
  have hfind : (expNames key values).find?
      (fun v => !hasFmtCache (expFmtFS fOr ⟨i0, false, fs⟩ bs key values).1 (i0 + 1) v)
      = none := by
    apply List.find?_eq_none.mpr
    intro v hv
    have h1 : (expFmtFS fOr ⟨i0, false, fs⟩ bs key values).1 = fs := by rw [hfmt]
    rw [h1, hallfmt v hv]
    simp
  have hfmt2 : (expFmtFS fOr ⟨i0, false, fs⟩ bs key values).2 = 0 := by rw [hfmt]
  simp only [hfind, hdiff, hdirty, hfmt2]

/-- A warm iteration whose diff artifacts are moreover all non-empty performs
zero diff invocations. -/
theorem experiment_warm_nodiff (fOr : Style → List String)
    (dOr : List String → List String → List String) (L : List String)
    (i0 : Nat) (fs : FS) (bs : Style) (key : String) (values : List CandVal)
    (hsig : sigAt fs (i0 + 1) = some (key, bs))
    (hw : iterWarm dOr L fs (i0 + 1) (expNames key values))
    (hne : ∀ v ∈ expNames key values, hasDiffCache fs (i0 + 1) v = true) :
    (expDiffFS fOr dOr L ⟨i0, false, fs⟩ bs key values).2 = 0 := by
  obtain ⟨hfmt, -, -, -⟩ := experiment_warm fOr dOr L i0 fs bs key values 0 hsig hw
  unfold expDiffFS
  rw [hfmt]
  show (diffPhase dOr L (i0 + 1) (expNames key values) fs).2 = 0
  unfold diffPhase
  rw [diffPhase_warm_all _ _ _ _ _ _ hne]

/-- The iteration counter advances by exactly the number of options. -/
theorem runOptions_iter (fOr : Style → List String)
    (dOr : List String → List String → List String) (L : List String)
    (opts : List (String × List CandVal)) :
    ∀ (st : CacheState) (style : Style) (prev : Nat) (r : RunResult),
    runOptions fOr dOr L opts st style prev = .ok r →
    r.cache.iter = st.iter + opts.length := by
  induction opts with
  | nil =>
    intro st style prev r h
    unfold runOptions at h
    have heq := Except.ok.inj h
    rw [← heq]
    simp
  | cons o rest ih =>
    rcases o with ⟨key, values⟩
    intro st style prev r h
    unfold runOptions at h
    cases hexp : experimentForOption fOr dOr L st style key values prev with
    | error e => rw [hexp] at h; exact absurd h (by simp)
    | ok e =>
      rw [hexp] at h
      have h2 : (match runOptions fOr dOr L rest e.cache e.style e.prevScore with
        | Except.error e2 => Except.error e2
        | Except.ok rr => Except.ok (⟨rr.style, rr.prevScore, rr.cache,
            e.fmtCalls + rr.fmtCalls, e.diffCalls + rr.diffCalls⟩ : RunResult)) =
          Except.ok r := h
      cases hrest : runOptions fOr dOr L rest e.cache e.style e.prevScore with
      | error e2 => rw [hrest] at h2; exact absurd h2 (by simp)
      | ok rr =>
        rw [hrest] at h2
        have hr := Except.ok.inj h2
        obtain ⟨-, -, hcache, -, -⟩ := experiment_ok_elim _ _ _ _ _ _ _ _ _ hexp
        have hei : e.cache.iter = st.iter + 1 := by rw [hcache]
        have hri := ih _ _ _ _ hrest
        rw [← hr]
        show rr.cache.iter = st.iter + (rest.length + 1)
        rw [hri, hei]
        omega

/-- A successful run only writes inside the iteration directories it visits. -/
theorem runOptions_frame (fOr : Style → List String)
    (dOr : List String → List String → List String) (L : List String)
    (opts : List (String × List CandVal)) :
    ∀ (st : CacheState) (style : Style) (prev : Nat) (r : RunResult) (j : Nat),
    runOptions fOr dOr L opts st style prev = .ok r →
    (j ≤ st.iter ∨ st.iter + opts.length < j) → r.cache.fs j = st.fs j := by
  induction opts with
  | nil =>
    intro st style prev r j h hj
    unfold runOptions at h
    have heq := Except.ok.inj h
    rw [← heq]
  | cons o rest ih =>
    rcases o with ⟨key, values⟩
    intro st style prev r j h hj
    unfold runOptions at h
    cases hexp : experimentForOption fOr dOr L st style key values prev with
    | error e => rw [hexp] at h; exact absurd h (by simp)
    | ok e =>
      rw [hexp] at h
      have h2 : (match runOptions fOr dOr L rest e.cache e.style e.prevScore with
        | Except.error e2 => Except.error e2
        | Except.ok rr => Except.ok (⟨rr.style, rr.prevScore, rr.cache,
            e.fmtCalls + rr.fmtCalls, e.diffCalls + rr.diffCalls⟩ : RunResult)) =
          Except.ok r := h
      cases hrest : runOptions fOr dOr L rest e.cache e.style e.prevScore with
      | error e2 => rw [hrest] at h2; exact absurd h2 (by simp)
      | ok rr =>
        rw [hrest] at h2
        have hr := Except.ok.inj h2
        obtain ⟨-, -, hcache, -, -⟩ := experiment_ok_elim _ _ _ _ _ _ _ _ _ hexp
        have hei : e.cache.iter = st.iter + 1 := by rw [hcache]
        have hj1 : j ≠ st.iter + 1 := by
          rcases hj with hj | hj
          · omega
          · simp only [List.length_cons] at hj; omega
        have hj2 : j ≤ e.cache.iter ∨ e.cache.iter + rest.length < j := by
          rw [hei]
          rcases hj with hj | hj
          · left; omega
          · right; simp only [List.length_cons] at hj; omega
        have h1 : rr.cache.fs j = e.cache.fs j := ih _ _ _ _ _ hrest hj2
        have h2 : e.cache.fs j = st.fs j := experiment_frame _ _ _ _ _ _ _ _ _ _ hexp hj1
        rw [← hr]
        show rr.cache.fs j = st.fs j
        rw [h1, h2]

/-- No iteration directory stores an empty diff artifact. -/
def noEmptyDiffsAll (fs : FS) : Prop :=
  ∀ j d, fs j = some d → ∀ p ∈ d.slots, p.2.diffFile ≠ some []

/-- An existing slot is an entry of its directory's listing. -/
theorem slot_mem (fs : FS) (i : Nat) (v : String) (s : CandidateSlot)
    (h : slotAt fs i v = some s) :
    ∃ d p, fs i = some d ∧ p ∈ d.slots ∧ p.2 = s := by
  obtain ⟨d, hd, hg⟩ := slotAt_some_elim _ _ _ _ h
  unfold getSlot at hg
  cases hf : d.slots.find? (fun p => decide (p.1 = v)) with
  | none => rw [hf] at hg; simp at hg
  | some p =>
    rw [hf] at hg
    exact ⟨d, p, hd, List.mem_of_find?_eq_some hf, by simpa using hg⟩

/-- Replay of a successful run against its own populated cache: starting from
the final dump directory with a clean sample, the whole run performs zero
formatter invocations, reproduces the same style and threshold, leaves the
dump directory unchanged, and performs zero diff invocations when no cached
diff artifact is empty. -/
theorem runTwice (fOr : Style → List String)
    (dOr : List String → List String → List String) (L : List String)
    (opts : List (String × List CandVal)) :
    ∀ (st : CacheState) (style : Style) (prev : Nat) (r : RunResult),
    runOptions fOr dOr L opts st style prev = .ok r →
    ∃ k, runOptions fOr dOr L opts ⟨st.iter, false, r.cache.fs⟩ style prev =
        .ok ⟨r.style, r.prevScore, ⟨r.cache.iter, false, r.cache.fs⟩, 0, k⟩ ∧
      (noEmptyDiffsAll r.cache.fs → k = 0) := by
  induction opts with
  | nil =>
    intro st style prev r h
    unfold runOptions at h
    have heq := Except.ok.inj h
    refine ⟨0, ?_, fun _ => rfl⟩
    rw [← heq]
    rfl
  | cons o rest ih =>
    rcases o with ⟨key, values⟩
    intro st style prev r h
    unfold runOptions at h
    cases hexp : experimentForOption fOr dOr L st style key values prev with
    | error e => rw [hexp] at h; exact absurd h (by simp)
    | ok e =>
      rw [hexp] at h
      have h2 : (match runOptions fOr dOr L rest e.cache e.style e.prevScore with
        | Except.error e2 => Except.error e2
        | Except.ok rr => Except.ok (⟨rr.style, rr.prevScore, rr.cache,
            e.fmtCalls + rr.fmtCalls, e.diffCalls + rr.diffCalls⟩ : RunResult)) =
          Except.ok r := h
      cases hrest : runOptions fOr dOr L rest e.cache e.style e.prevScore with
      | error e2 => rw [hrest] at h2; exact absurd h2 (by simp)
      | ok rr =>
        rw [hrest] at h2
        have hr := Except.ok.inj h2
        subst hr
        obtain ⟨-, hsel, hcache, -, -⟩ := experiment_ok_elim _ _ _ _ _ _ _ _ _ hexp
        have hefs : e.cache.fs = (expDiffFS fOr dOr L st style key values).1 := by
          rw [hcache]
        have hei : e.cache.iter = st.iter + 1 := by rw [hcache]
        -- the final dump directory agrees with the end of this iteration at
        -- the iteration's own slot
        have hframe : rr.cache.fs (st.iter + 1) = e.cache.fs (st.iter + 1) := by
          apply runOptions_frame fOr dOr L rest _ _ _ _ _ hrest
          left
          omega
        -- transfer the iteration posterior to the final dump directory
        have hsig2 : sigAt rr.cache.fs (st.iter + 1) = some (key, style) := by
          rw [sigAt_congr _ _ _ hframe]
          exact experiment_sig _ _ _ _ _ _ _ _ _ hexp
        have hwarm : iterWarm dOr L rr.cache.fs (st.iter + 1) (expNames key values) := by
          intro v hv
          obtain ⟨s, F, D, hs, hF, hFne, hD, hDe⟩ :=
            experiment_post _ _ _ _ _ _ _ _ _ hexp v hv
          refine ⟨s, F, D, ?_, hF, hFne, hD, hDe⟩
          rw [slotAt_congr _ _ _ _ hframe]
          exact hs
        -- replay of this option against the final dump directory
        obtain ⟨hfmtW, hdiffW, hdirtyW, hexpW⟩ :=
          experiment_warm fOr dOr L st.iter rr.cache.fs style key values prev hsig2 hwarm
        have hscores : scoreResults rr.cache.fs (st.iter + 1) (expNames key values) =
            scoreResults e.cache.fs (st.iter + 1) (expNames key values) :=
          scoreResults_congr _ _ _ _ hframe
        have hsel2 : selectOutcome style key prev
            (scoreResults rr.cache.fs (st.iter + 1) (expNames key values)) =
            some (e.style, e.prevScore) := by
          rw [hscores, hefs]
          exact hsel
        rw [hsel2] at hexpW
        -- replay of the remaining options (induction hypothesis)
        obtain ⟨k2, hrest2, hk2⟩ := ih _ _ _ _ hrest
        refine ⟨(expDiffFS fOr dOr L ⟨st.iter, false, rr.cache.fs⟩ style key values).2 + k2,
          ?_, ?_⟩
        · show (match experimentForOption fOr dOr L ⟨st.iter, false, rr.cache.fs⟩
              style key values prev with
            | Except.error e2 => Except.error e2
            | Except.ok e2 =>
              match runOptions fOr dOr L rest e2.cache e2.style e2.prevScore with
              | Except.error e3 => Except.error e3
              | Except.ok rr2 => Except.ok (⟨rr2.style, rr2.prevScore, rr2.cache,
                  e2.fmtCalls + rr2.fmtCalls, e2.diffCalls + rr2.diffCalls⟩ : RunResult)) = _
          rw [hexpW]
          have hstep2 : runOptions fOr dOr L rest ⟨st.iter + 1, false, rr.cache.fs⟩
              e.style e.prevScore =
              .ok ⟨rr.style, rr.prevScore, ⟨rr.cache.iter, false, rr.cache.fs⟩, 0, k2⟩ := by
            rw [← hei]
            exact hrest2
          show (match runOptions fOr dOr L rest ⟨st.iter + 1, false, rr.cache.fs⟩
              e.style e.prevScore with
            | Except.error e3 => Except.error e3
            | Except.ok rr2 => Except.ok (⟨rr2.style, rr2.prevScore, rr2.cache,
                0 + rr2.fmtCalls,
                (expDiffFS fOr dOr L ⟨st.iter, false, rr.cache.fs⟩ style key values).2
                  + rr2.diffCalls⟩ : RunResult)) = _
          rw [hstep2]
          rfl
        · intro hnd
          have hk2z := hk2 hnd
          have hk1z : (expDiffFS fOr dOr L ⟨st.iter, false, rr.cache.fs⟩ style key values).2
              = 0 := by
            apply experiment_warm_nodiff fOr dOr L st.iter rr.cache.fs style key values
              hsig2 hwarm
            intro v hv
            obtain ⟨s, F, D, hs, hF, hFne, hD, hDe⟩ := hwarm v hv
            obtain ⟨d, p, hdmem, hpmem, hps⟩ := slot_mem _ _ _ _ hs
            have hDne : D ≠ [] := by
              intro hnil
              subst hnil
              exact hnd _ _ hdmem p hpmem (by rw [hps, hD])
            exact hasDiffCache_intro _ _ _ _ _ hs hD hDne
          rw [hk1z, hk2z]

/-- Inserting never yields an empty list. -/
theorem ordInsert_ne_nil (p : Nat × String) (s : List (Nat × String)) :
    ordInsert p s ≠ [] := by
  cases s with
  | nil => simp [ordInsert]
  | cons q t =>
    unfold ordInsert
    split <;> simp

/-- The sort returns an empty list only for an empty input. -/
theorem sortResults_eq_nil (l : List (Nat × String)) :
    sortResults l = [] ↔ l = [] := by
  cases l with
  | nil => simp [sortResults]
  | cons p t =>
    simp only [sortResults]
    exact ⟨fun h => absurd h (ordInsert_ne_nil _ _), fun h => by cases h⟩

/-- The head of an insertion. -/
theorem ordInsert_head (p : Nat × String) (s : List (Nat × String)) :
    (ordInsert p s).head? = some (match s.head? with
      | none => p
      | some q => if p.1 ≤ q.1 then p else q) := by
  cases s with
  | nil => rfl
  | cons q t =>
    unfold ordInsert
    by_cases h : p.1 ≤ q.1 <;> simp [h]

/-- The head of the stable ascending sort carries the minimum score. -/
theorem sortResults_min (l : List (Nat × String)) :
    (sortResults l).head?.map (fun p => p.1) = minScoreSpec (l.map (fun p => p.1)) := by
  induction l with
  | nil => rfl
  | cons p t ih =>
    show (ordInsert p (sortResults t)).head?.map (fun p => p.1) =
      minScoreSpec (p.1 :: t.map (fun p => p.1))
    rw [ordInsert_head]
    cases hs : (sortResults t).head? with
    | none =>
      have ht : t = [] :=
        (sortResults_eq_nil t).mp (List.head?_eq_none_iff.mp hs)
      subst ht
      rfl
    | some q =>
      have hmin : minScoreSpec (t.map (fun p => p.1)) = some q.1 := by
        rw [← ih, hs]
        rfl
      show some (if p.1 ≤ q.1 then p else q).1 = minScoreSpec (p.1 :: t.map (fun p => p.1))
      have hcons : minScoreSpec (p.1 :: t.map (fun p => p.1)) =
          some (match minScoreSpec (t.map (fun p => p.1)) with
            | some m => min p.1 m
            | none => p.1) := rfl
      rw [hcons, hmin]
      by_cases hpq : p.1 ≤ q.1 <;> simp [hpq, Nat.min_def]

/-- Stability: the head of the sort is the first record of the input carrying
the minimal score (candidate-list order breaks ties). -/
theorem sortResults_find (l : List (Nat × String)) :
    ∀ r0 t, sortResults l = r0 :: t →
    l.find? (fun p => decide (p.1 = r0.1)) = some r0 := by
  induction l with
  | nil => intro r0 t h; cases h
  | cons p s ih =>
    intro r0 t h
    show (p :: s).find? (fun x => decide (x.1 = r0.1)) = some r0
    have hsort : ordInsert p (sortResults s) = r0 :: t := h
    cases hs : sortResults s with
    | nil =>
      rw [hs] at hsort
      unfold ordInsert at hsort
      have hp : p = r0 := by
        have := List.cons.inj hsort
        exact this.1
      subst hp
      rw [List.find?_cons_of_pos _ (by simp)]
    | cons q tq =>
      rw [hs] at hsort
      unfold ordInsert at hsort
      by_cases hpq : p.1 ≤ q.1
      · rw [if_pos hpq] at hsort
        have hp : p = r0 := (List.cons.inj hsort).1
        subst hp
        rw [List.find?_cons_of_pos _ (by simp)]
      · rw [if_neg hpq] at hsort
        have hq : q = r0 := (List.cons.inj hsort).1
        subst hq
        have hne : ¬ (p.1 = q.1) := by
          intro hEq
          exact hpq (le_of_eq hEq)
        rw [List.find?_cons_of_neg _ (by simp [hne])]
        exact ih q tq hs

/-- Ascending score order, as a recursive predicate. -/
def scoresMono : List (Nat × String) → Prop
  | [] => True
  | [_] => True
  | p :: q :: t => p.1 ≤ q.1 ∧ scoresMono (q :: t)

/-- Insertion preserves ascending score order. -/
theorem scoresMono_ordInsert (p : Nat × String) :
    ∀ (s : List (Nat × String)), scoresMono s → scoresMono (ordInsert p s)
  | [] => fun _ => trivial
  | [q] => fun _ => by
    unfold ordInsert
    by_cases hpq : p.1 ≤ q.1
    · rw [if_pos hpq]
      exact ⟨hpq, trivial⟩
    · rw [if_neg hpq]
      exact ⟨Nat.le_of_not_le hpq, trivial⟩
  | q :: q2 :: t => fun h => by
    unfold ordInsert
    by_cases hpq : p.1 ≤ q.1
    · rw [if_pos hpq]
      exact ⟨hpq, h⟩
    · rw [if_neg hpq]
      have hrec := scoresMono_ordInsert p (q2 :: t) h.2
      show scoresMono (q :: ordInsert p (q2 :: t))
      unfold ordInsert at hrec ⊢
      by_cases hpq2 : p.1 ≤ q2.1
      · rw [if_pos hpq2] at hrec ⊢
        exact ⟨Nat.le_of_not_le hpq, hrec⟩
      · rw [if_neg hpq2] at hrec ⊢
        exact ⟨h.1, hrec⟩

/-- The sort produces ascending score order. -/
theorem scoresMono_sortResults (l : List (Nat × String)) :
    scoresMono (sortResults l) := by
  induction l with
  | nil => trivial
  | cons p t ih => exact scoresMono_ordInsert p _ ih

/-- In an ascending list the head's score bounds the last's. -/
theorem scoresMono_head_le_last :
    ∀ (q : Nat × String) (t : List (Nat × String)), scoresMono (q :: t) →
    ∀ q2, (q :: t).getLast? = some q2 → q.1 ≤ q2.1
  | q, [], _, q2, h => by
    simp at h
    rw [← h]
  | q, q3 :: t, hmono, q2, h => by
    rw [List.getLast?_cons_cons] at h
    exact le_trans hmono.1 (scoresMono_head_le_last q3 t hmono.2 q2 h)

/-- The last entry of an insertion into an ascending list: the previous last,
or the inserted record when it strictly exceeds it. -/
theorem ordInsert_getLast (p : Nat × String) :
    ∀ (s : List (Nat × String)), scoresMono s →
    (ordInsert p s).getLast? = some (match s.getLast? with
      | none => p
      | some q => if q.1 < p.1 then p else q)
  | [], _ => rfl
  | q :: t, hmono => by
    unfold ordInsert
    by_cases hpq : p.1 ≤ q.1
    · rw [if_pos hpq]
      cases hlast : (q :: t).getLast? with
      | none => exact absurd (List.getLast?_eq_none_iff.mp hlast) (by simp)
      | some q2 =>
        have hq2 : q.1 ≤ q2.1 := scoresMono_head_le_last q t hmono q2 hlast
        have hnot : ¬ (q2.1 < p.1) := by omega
        rw [List.getLast?_cons_cons, hlast]
        show some q2 = some (if q2.1 < p.1 then p else q2)
        rw [if_neg hnot]
    · rw [if_neg hpq]
      cases t with
      | nil =>
        have hq : q.1 < p.1 := by omega
        simp [ordInsert, hq]
      | cons q3 t2 =>
        have hrec := ordInsert_getLast p (q3 :: t2) hmono.2
        have hne := ordInsert_ne_nil p (q3 :: t2)
        cases hX : ordInsert p (q3 :: t2) with
        | nil => exact absurd hX hne
        | cons x xs =>
          rw [hX] at hrec
          rw [List.getLast?_cons_cons, hrec, List.getLast?_cons_cons]

/-- The last entry of the stable ascending sort carries the maximum score. -/
theorem sortResults_max (l : List (Nat × String)) :
    (sortResults l).getLast?.map (fun p => p.1) = maxScoreSpec (l.map (fun p => p.1)) := by
  induction l with
  | nil => rfl
  | cons p t ih =>
    show (ordInsert p (sortResults t)).getLast?.map (fun p => p.1) =
      maxScoreSpec (p.1 :: t.map (fun p => p.1))
    rw [ordInsert_getLast p _ (scoresMono_sortResults t)]
    have hcons : maxScoreSpec (p.1 :: t.map (fun p => p.1)) =
        some (match maxScoreSpec (t.map (fun p => p.1)) with
          | some m => max p.1 m
          | none => p.1) := rfl
    rw [hcons]
    cases hlast : (sortResults t).getLast? with
    | none =>
      have ht : t = [] := (sortResults_eq_nil t).mp (List.getLast?_eq_none_iff.mp hlast)
      subst ht
      rfl
    | some q =>
      have hmax : maxScoreSpec (t.map (fun p => p.1)) = some q.1 := by
        rw [← ih, hlast]
        rfl
      rw [hmax]
      show some (if q.1 < p.1 then p else q).1 = some (max p.1 q.1)
      by_cases hq : q.1 < p.1
      · rw [if_pos hq]
        have : max p.1 q.1 = p.1 := by omega
        rw [this]
      · rw [if_neg hq]
        have : max p.1 q.1 = q.1 := by omega
        rw [this]

/-- The coded selection step (stable sort, first and last entries) computes
exactly the spec-worded one (score extrema, first minimal candidate in list
order, skip on tie or non-improvement). -/
theorem selectOutcome_eq_specSelect (bs : Style) (key : String) (prev : Nat)
    (results : List (Nat × String)) :
    selectOutcome bs key prev results = specSelect bs key prev results := by
  cases hs : sortResults results with
  | nil =>
    have hres : results = [] := (sortResults_eq_nil results).mp hs
    subst hres
    rfl
  | cons r0 t =>
    have hmin : minScoreSpec (results.map (fun p => p.1)) = some r0.1 := by
      rw [← sortResults_min results, hs]
      rfl
    have hlastc : (r0 :: t).getLast? = some (t.getLastD r0) := by
      rw [List.getLast?_cons]
      rw [List.getLastD_eq_getLast?]
    have hmax : maxScoreSpec (results.map (fun p => p.1)) = some ((t.getLastD r0).1) := by
      rw [← sortResults_max results, hs, hlastc]
      rfl
    have hfind : results.find? (fun p => decide (p.1 = r0.1)) = some r0 :=
      sortResults_find results r0 t hs
    unfold selectOutcome specSelect
    rw [hs, hmin, hmax]
    show some (if (decide (r0.1 = (t.getLastD r0).1) || decide (prev ≤ r0.1)) = true
        then bs else dictSet bs key r0.2, r0.1) =
      (match results.find? (fun p => decide (p.1 = r0.1)) with
       | some w => some (if r0.1 = (t.getLastD r0).1 ∨ prev ≤ r0.1 then bs
           else dictSet bs key w.2, r0.1)
       | none => none)
    rw [hfind]
    show some (if (decide (r0.1 = (t.getLastD r0).1) || decide (prev ≤ r0.1)) = true
        then bs else dictSet bs key r0.2, r0.1) =
      some (if r0.1 = (t.getLastD r0).1 ∨ prev ≤ r0.1 then bs
           else dictSet bs key r0.2, r0.1)
    by_cases hig : r0.1 = (t.getLastD r0).1 ∨ prev ≤ r0.1
    · rw [if_pos hig]
      rcases hig with hig | hig
      · simp [hig]
      · simp [hig]
    · rw [if_neg hig]
      push_neg at hig
      have hig1 : ¬ (r0.1 = (t.getLast?.getD r0).1) := by
        rw [← List.getLastD_eq_getLast?]
        exact hig.1
      have h1 : (decide (r0.1 = (t.getLastD r0).1) || decide (prev ≤ r0.1)) = false := by
        simp [hig1, Nat.not_le.mpr hig.2]
      rw [h1]
      simp

/-- The coded per-option experiment equals the spec-worded one. -/
theorem experiment_eq_spec (fOr : Style → List String)
    (dOr : List String → List String → List String) (L : List String)
    (st : CacheState) (bs : Style) (key : String) (values : List CandVal)
    (prev : Nat) :
    experimentForOption fOr dOr L st bs key values prev =
      specExperimentForOption fOr dOr L st bs key values prev := by
  unfold experimentForOption specExperimentForOption
  rw [selectOutcome_eq_specSelect]

/-- The coded option loop equals the spec-worded one, on all inputs. -/
theorem runOptions_eq_spec (fOr : Style → List String)
    (dOr : List String → List String → List String) (L : List String)
    (opts : List (String × List CandVal)) :
    ∀ (st : CacheState) (style : Style) (prev : Nat),
    runOptions fOr dOr L opts st style prev =
      specRunOptions fOr dOr L opts st style prev := by
  induction opts with
  | nil => intro st style prev; rfl
  | cons o rest ih =>
    rcases o with ⟨key, values⟩
    intro st style prev
    show (match experimentForOption fOr dOr L st style key values prev with
      | Except.error e => Except.error e
      | Except.ok r =>
        match runOptions fOr dOr L rest r.cache r.style r.prevScore with
        | Except.error e => Except.error e
        | Except.ok rr => Except.ok (⟨rr.style, rr.prevScore, rr.cache,
            r.fmtCalls + rr.fmtCalls, r.diffCalls + rr.diffCalls⟩ : RunResult)) =
      (match specExperimentForOption fOr dOr L st style key values prev with
      | Except.error e => Except.error e
      | Except.ok r =>
        match specRunOptions fOr dOr L rest r.cache r.style r.prevScore with
        | Except.error e => Except.error e
        | Except.ok rr => Except.ok (⟨rr.style, rr.prevScore, rr.cache,
            r.fmtCalls + rr.fmtCalls, r.diffCalls + rr.diffCalls⟩ : RunResult))
    rw [← experiment_eq_spec]
    cases hexp : experimentForOption fOr dOr L st style key values prev with
    | error e => rfl
    | ok e =>
      show (match runOptions fOr dOr L rest e.cache e.style e.prevScore with
        | Except.error e2 => Except.error e2
        | Except.ok rr => Except.ok (⟨rr.style, rr.prevScore, rr.cache,
            e.fmtCalls + rr.fmtCalls, e.diffCalls + rr.diffCalls⟩ : RunResult)) =
        (match specRunOptions fOr dOr L rest e.cache e.style e.prevScore with
        | Except.error e2 => Except.error e2
        | Except.ok rr => Except.ok (⟨rr.style, rr.prevScore, rr.cache,
            e.fmtCalls + rr.fmtCalls, e.diffCalls + rr.diffCalls⟩ : RunResult))
      rw [ih]

/-- A run reported successful carries its payload. -/
theorem isOkB_elim (e : Except String RunResult) (h : isOkB e = true) :
    e = .ok (getRes e) := by
  cases e with
  | ok r => rfl
  | error msg => simp [isOkB] at h

/-- A constant score list has equal minimum and maximum. -/
theorem minmax_const (a : Nat) :
    ∀ l, (∀ x ∈ l, x = a) →
    minScoreSpec (a :: l) = some a ∧ maxScoreSpec (a :: l) = some a
  | [] => fun _ => ⟨rfl, rfl⟩
  | b :: t => fun h => by
    have hb : b = a := h b (by simp)
    subst hb
    have iht := minmax_const b t (fun x hx => h x (by simp [hx]))
    constructor
    · show some (match minScoreSpec (b :: t) with | some m => min b m | none => b) = some b
      rw [iht.1]
      simp
    · show some (match maxScoreSpec (b :: t) with | some m => max b m | none => b) = some b
      rw [iht.2]
      simp

/-- Full case analysis of the acceptance step, in spec vocabulary: given a
successful selection, the style is unchanged on a tie or non-improvement and
gains the first minimal-score candidate otherwise; the returned threshold is
the minimum score. -/
theorem select_cases (bs : Style) (key : String) (prev : Nat)
    (results : List (Nat × String)) (sty : Style) (mv : Nat)
    (hsel : selectOutcome bs key prev results = some (sty, mv)) :
    ∀ m x, minScoreSpec (results.map (fun p => p.1)) = some m →
      maxScoreSpec (results.map (fun p => p.1)) = some x →
      mv = m ∧
      ((m = x ∨ prev ≤ m) → sty = bs) ∧
      (m ≠ x → m < prev →
        ∃ w, results.find? (fun p => decide (p.1 = m)) = some w ∧
          sty = dictSet bs key w.2) := by
  intro m x hm hx
  unfold selectOutcome at hsel
  cases hs : sortResults results with
  | nil => rw [hs] at hsel; exact absurd hsel (by simp)
  | cons r0 t =>
    rw [hs] at hsel
    have hsel2 : some (if (decide (r0.1 = (t.getLastD r0).1) || decide (prev ≤ r0.1)) = true
        then bs else dictSet bs key r0.2, r0.1) = some (sty, mv) := hsel
    have hpair := Option.some.inj hsel2
    have hsty : sty = if (decide (r0.1 = (t.getLastD r0).1) || decide (prev ≤ r0.1)) = true
        then bs else dictSet bs key r0.2 := (congrArg Prod.fst hpair).symm
    have hmv : mv = r0.1 := (congrArg Prod.snd hpair).symm
    have hr0m : r0.1 = m := by
      have := sortResults_min results
      rw [hs, hm] at this
      exact Option.some.inj this
    have hlx : (t.getLastD r0).1 = x := by
      have := sortResults_max results
      rw [hs, List.getLast?_cons, ← List.getLastD_eq_getLast?, hx] at this
      exact Option.some.inj this
    refine ⟨by rw [hmv, hr0m], ?_, ?_⟩
    · intro hig
      rw [hsty, if_pos ?_]
      rw [hr0m, hlx]
      rcases hig with hig | hig
      · simp [hig]
      · simp [hig]
    · intro hne hlt
      refine ⟨r0, ?_, ?_⟩
      · rw [← hr0m]
        exact sortResults_find results r0 t hs
      · rw [hsty, if_neg ?_]
        rw [hr0m, hlx]
        have h1 : ¬ (m = x) := hne
        have h2 : ¬ (prev ≤ m) := by omega
        simp [h1, h2]

/-- The `results` list of one option's iteration: the scores the program
computes after the diff batch, in candidate order (lines 263-270). -/
def expResults (fOr : Style → List String)
    (dOr : List String → List String → List String) (L : List String)
    (st : CacheState) (bs : Style) (key : String) (values : List CandVal) :
    List (Nat × String) :=
  scoreResults (expDiffFS fOr dOr L st bs key values).1 (st.iter + 1) (expNames key values)

/-- Concrete formatter oracle for witnesses: candidate `A`'s effective style
formats to two lines, anything else to three. -/
def wFmt : Style → List String :=
  fun s => if s = [(("K"), ("A"))] then [("+x"), ("+x")] else [("+y"), ("+y"), ("+y")]

/-- Concrete diff oracle for witnesses: the diff output is the formatted
content itself (every line carries a marker). -/
def wDiff : List String → List String → List String := fun _ f => f

/-- Concrete sample for witnesses. -/
def wLines : List String := [("a\n"), ("\n")]

/-- Concrete candidate list for witnesses. -/
def wVals : List CandVal := [.plain ("A"), .plain ("B")]

/-- Concrete initial cache state for witnesses: fresh dump directory, dirty
sample. -/
def wState : CacheState := ⟨0, true, emptyFS⟩

/-- Claim C1: for every option iteration, after scoring all candidates, the
accumulated style is left unchanged when `minScore = maxScore` or when
`minScore ≥ prevScore`; otherwise the entry at `key` is set to the winning
candidate's selection name (the first minimal-score record); in particular an
option whose candidates all score equal never adds an entry. -/
theorem c1_acceptance_policy (fOr : Style → List String)
    (dOr : List String → List String → List String) (L : List String)
    (st : CacheState) (bs : Style) (key : String) (values : List CandVal)
    (prev : Nat)
    (h : isOkB (experimentForOption fOr dOr L st bs key values prev) = true) :
    ∀ m x,
    minScoreSpec ((expResults fOr dOr L st bs key values).map (fun p => p.1)) = some m →
    maxScoreSpec ((expResults fOr dOr L st bs key values).map (fun p => p.1)) = some x →
    (((m = x ∨ prev ≤ m) →
      (getRes (experimentForOption fOr dOr L st bs key values prev)).style = bs) ∧
     (m ≠ x → m < prev →
      ∃ w, (expResults fOr dOr L st bs key values).find? (fun p => decide (p.1 = m)) = some w ∧
        (getRes (experimentForOption fOr dOr L st bs key values prev)).style =
          dictSet bs key w.2)) ∧
    ((∀ a ∈ (expResults fOr dOr L st bs key values).map (fun p => p.1),
      ∀ b ∈ (expResults fOr dOr L st bs key values).map (fun p => p.1), a = b) →
      (getRes (experimentForOption fOr dOr L st bs key values prev)).style = bs) := by
  intro m x hm hx
  obtain ⟨-, hsel, -, -, -⟩ := experiment_ok_elim _ _ _ _ _ _ _ _ _ (isOkB_elim _ h)
  have hcases := select_cases bs key prev (expResults fOr dOr L st bs key values)
    (getRes (experimentForOption fOr dOr L st bs key values prev)).style
    (getRes (experimentForOption fOr dOr L st bs key values prev)).prevScore hsel m x hm hx
  refine ⟨⟨hcases.2.1, hcases.2.2⟩, ?_⟩
  intro hconst
  apply hcases.2.1
  left
  cases hl : (expResults fOr dOr L st bs key values).map (fun p => p.1) with
  | nil => rw [hl] at hm; exact absurd hm (by simp [minScoreSpec])
  | cons s0 srest =>
    rw [hl] at hm hx hconst
    have hall : ∀ y ∈ srest, y = s0 := by
      intro y hy
      exact hconst y (by simp [hy]) s0 (by simp)
    obtain ⟨hmin0, hmax0⟩ := minmax_const s0 srest hall
    rw [hmin0] at hm
    rw [hmax0] at hx
    have h1 := Option.some.inj hm
    have h2 := Option.some.inj hx
    omega

/-- Claim C2: after an option is processed, the running threshold returned to
`main` (and rebound into `prevScore` at line 329) is exactly the minimum score
observed among that option's candidates, whether or not the option was
accepted. -/
theorem c2_threshold_is_min (fOr : Style → List String)
    (dOr : List String → List String → List String) (L : List String)
    (st : CacheState) (bs : Style) (key : String) (values : List CandVal)
    (prev : Nat)
    (h : isOkB (experimentForOption fOr dOr L st bs key values prev) = true) :
    some (getRes (experimentForOption fOr dOr L st bs key values prev)).prevScore =
      minScoreSpec ((expResults fOr dOr L st bs key values).map (fun p => p.1)) := by
  obtain ⟨-, hsel0, -, -, -⟩ := experiment_ok_elim _ _ _ _ _ _ _ _ _ (isOkB_elim _ h)
  have hsel : selectOutcome bs key prev (expResults fOr dOr L st bs key values) =
      some ((getRes (experimentForOption fOr dOr L st bs key values prev)).style,
        (getRes (experimentForOption fOr dOr L st bs key values prev)).prevScore) := hsel0
  unfold selectOutcome at hsel
  cases hs : sortResults (expResults fOr dOr L st bs key values) with
  | nil => rw [hs] at hsel; exact absurd hsel (by simp)
  | cons r0 t =>
    rw [hs] at hsel
    have hsel2 : some (if (decide (r0.1 = (t.getLastD r0).1) || decide (prev ≤ r0.1)) = true
        then bs else dictSet bs key r0.2, r0.1) =
        some ((getRes (experimentForOption fOr dOr L st bs key values prev)).style,
          (getRes (experimentForOption fOr dOr L st bs key values prev)).prevScore) := hsel
    have hmv : r0.1 =
        (getRes (experimentForOption fOr dOr L st bs key values prev)).prevScore :=
      congrArg Prod.snd (Option.some.inj hsel2)
    have hmin := sortResults_min (expResults fOr dOr L st bs key values)
    rw [hs] at hmin
    have hmin2 : some r0.1 =
        minScoreSpec ((expResults fOr dOr L st bs key values).map (fun p => p.1)) := hmin
    rw [← hmv]
    exact hmin2

/-- Witness for C1 at a concrete input: scores 2 and 3, threshold 100, so the
option is accepted with the minimal candidate. -/
theorem c1_witness :
    isOkB (experimentForOption wFmt wDiff wLines wState [] ("K") wVals 100) = true ∧
    ((2 = 3 ∨ 100 ≤ 2) →
      (getRes (experimentForOption wFmt wDiff wLines wState [] ("K") wVals 100)).style = []) ∧
    (2 ≠ 3 → 2 < 100 →
      ∃ w, (expResults wFmt wDiff wLines wState [] ("K") wVals).find?
          (fun p => decide (p.1 = 2)) = some w ∧
        (getRes (experimentForOption wFmt wDiff wLines wState [] ("K") wVals 100)).style =
          dictSet [] ("K") w.2) :=
  ⟨rfl,
   (c1_acceptance_policy wFmt wDiff wLines wState [] ("K") wVals 100 rfl 2 3 rfl rfl).1.1,
   (c1_acceptance_policy wFmt wDiff wLines wState [] ("K") wVals 100 rfl 2 3 rfl rfl).1.2⟩

/-- Witness for C2 at the same concrete input: the returned threshold is the
minimum score 2. -/
theorem c2_witness :
    isOkB (experimentForOption wFmt wDiff wLines wState [] ("K") wVals 100) = true ∧
    some (getRes (experimentForOption wFmt wDiff wLines wState [] ("K") wVals 100)).prevScore =
      minScoreSpec ((expResults wFmt wDiff wLines wState [] ("K") wVals).map (fun p => p.1)) :=
  ⟨rfl, c2_threshold_is_min wFmt wDiff wLines wState [] ("K") wVals 100 rfl⟩

/-- Counterexample to C3 as stated: a cache constructed over a clean sample
(`cacheDirty = false`) starting an iteration whose slot has no previously
recorded signature.  The claim's condition says the iteration is not stale (no
recorded signature exists), yet the program marks the cache stale, because the
missing signature files read back as `''`, which never equals the newly
computed signature. -/
theorem c3_counterexample :
    (startIteration ⟨0, false, emptyFS⟩ ("K") [] [("a")]).cacheDirty = true ∧
    claimedStaleC3 false emptyFS 1 ("K") [] = false := by
  constructor
  · rfl
  · rfl

/-- Claim C3 as amended: the iteration is treated as stale exactly when the
dirty flag is already set (sample dirty at construction, or an earlier
iteration of this run was stale — the flag is sticky) or when the recorded
signature, with missing signature files reading back as a never-matching
empty string, differs from the newly computed one; on staleness every listed
candidate subdirectory is freshly empty afterwards (the directory was deleted
and recreated before any artifact was written), and the new signature is
recorded either way. -/
theorem c3_stale_condition (st : CacheState) (key : String) (bs : Style)
    (names : List String) :
    (startIteration st key bs names).cacheDirty =
      (st.cacheDirty || !(decide (sigAt st.fs (st.iter + 1) = some (key, bs)))) ∧
    sigAt (startIteration st key bs names).fs (st.iter + 1) = some (key, bs) ∧
    ((startIteration st key bs names).cacheDirty = true →
      ∀ v ∈ names,
        slotAt (startIteration st key bs names).fs (st.iter + 1) v =
          some CandidateSlot.empty) := by
  refine ⟨startDirty_eq st key bs, startIteration_sig st key bs names, ?_⟩
  intro hdirty v hv
  exact startIteration_fresh st key bs names hdirty v hv

/-- Witness for C3's amended statement at a concrete stale input. -/
theorem c3_witness :
    (startIteration ⟨0, true, emptyFS⟩ ("K") [] [("a")]).cacheDirty =
      (true || !(decide (sigAt emptyFS 1 = some (("K"), [])))) ∧
    slotAt (startIteration ⟨0, true, emptyFS⟩ ("K") [] [("a")]).fs 1 ("a") =
      some CandidateSlot.empty :=
  ⟨(c3_stale_condition ⟨0, true, emptyFS⟩ ("K") [] [("a")]).1,
   (c3_stale_condition ⟨0, true, emptyFS⟩ ("K") [] [("a")]).2.2 rfl ("a") (by simp)⟩

/-- Formatter oracle for the C4 counterexample: every candidate formats the
sample to exactly itself. -/
def w4Fmt : Style → List String := fun _ => [("x\n"), ("\n")]

/-- Diff oracle consistent with `diff -u`: identical inputs produce empty
output. -/
def w4Diff : List String → List String → List String :=
  fun a b => if a = b then [] else [("-d"), ("+d")]

/-- Input files for the C4 scenarios. -/
def w4Files : List (List String) := [[("x\n")]]

/-- Option list for the C4 scenarios. -/
def w4Opts : List (String × List CandVal) := [(("K"), [.plain ("A")])]

/-- Formatter oracle whose output differs from the sample, so every diff
artifact is non-empty. -/
def w4bFmt : Style → List String := fun _ => [("y\n")]

/-- Input file without a trailing newline for the second C4 failure mode. -/
def w4nFiles : List (List String) := [[("x")]]

/-- Counterexample to C4 as stated, in both failure modes.  First: a candidate
whose formatted output equals the sample leaves an empty diff artifact; the
second run's `hasDiffCache` check fails on it (`getsize > 0`), so the diff
oracle is re-invoked — one diff invocation instead of the claimed zero (the
final style is still identical and no formatter runs).  Second: when the input
file lacks a trailing newline, the canonical copy reads back re-split (the
last line merged with the separator), never equal to the assembled line list,
so a re-run with unchanged input content is dirty, the cache is wiped, and the
formatter is re-invoked — one formatter invocation instead of the claimed
zero.  In each second run `oldContent` is the readback of what the first run
wrote, as the program reads it. -/
theorem c4_counterexample :
    (isOkB (runMain w4Fmt w4Diff emptyFS [] w4Files w4Opts) = true ∧
     isOkB (runMain w4Fmt w4Diff
       (getRes (runMain w4Fmt w4Diff emptyFS [] w4Files w4Opts)).cache.fs
       (readBackLines (assembleLines w4Files)) w4Files w4Opts) = true ∧
     (getRes (runMain w4Fmt w4Diff
       (getRes (runMain w4Fmt w4Diff emptyFS [] w4Files w4Opts)).cache.fs
       (readBackLines (assembleLines w4Files)) w4Files w4Opts)).style =
       (getRes (runMain w4Fmt w4Diff emptyFS [] w4Files w4Opts)).style ∧
     (getRes (runMain w4Fmt w4Diff
       (getRes (runMain w4Fmt w4Diff emptyFS [] w4Files w4Opts)).cache.fs
       (readBackLines (assembleLines w4Files)) w4Files w4Opts)).fmtCalls = 0 ∧
     (getRes (runMain w4Fmt w4Diff
       (getRes (runMain w4Fmt w4Diff emptyFS [] w4Files w4Opts)).cache.fs
       (readBackLines (assembleLines w4Files)) w4Files w4Opts)).diffCalls = 1) ∧
    (readBackLines (assembleLines w4nFiles) ≠ assembleLines w4nFiles ∧
     (mkInputSC (readBackLines (assembleLines w4nFiles)) w4nFiles).dirty = true ∧
     isOkB (runMain w4bFmt w4Diff emptyFS [] w4nFiles w4Opts) = true ∧
     isOkB (runMain w4bFmt w4Diff
       (getRes (runMain w4bFmt w4Diff emptyFS [] w4nFiles w4Opts)).cache.fs
       (readBackLines (assembleLines w4nFiles)) w4nFiles w4Opts) = true ∧
     (getRes (runMain w4bFmt w4Diff
       (getRes (runMain w4bFmt w4Diff emptyFS [] w4nFiles w4Opts)).cache.fs
       (readBackLines (assembleLines w4nFiles)) w4nFiles w4Opts)).fmtCalls = 1) :=
  ⟨⟨rfl, rfl, rfl, rfl, rfl⟩, ⟨by decide, rfl, rfl, rfl, rfl⟩⟩

/-- A bounded empty-diff check plus emptiness outside the visited range gives
the unbounded property. -/
theorem noEmptyDiffs_bridge (fs : FS) (n : Nat) (hb : noEmptyDiffsUpTo fs n = true)
    (hout : ∀ j, n < j → fs j = none) : noEmptyDiffsAll fs := by
  intro j d hj p hp
  by_cases hjle : j ≤ n
  · have hjmem : j ∈ List.range (n + 1) := List.mem_range.mpr (by omega)
    have hone := (List.all_eq_true.mp hb) j hjmem
    rw [hj] at hone
    have hone2 : d.slots.all (fun p => !(decide (p.2.diffFile = some []))) = true := hone
    have := (List.all_eq_true.mp hone2) p hp
    simpa using this
  · rw [hout j (by omega)] at hj
    exact absurd hj (by simp)

/-- Claim C4 as amended: re-running `main` over the cache populated by a
successful first run on the same input files succeeds with the identical final
style and threshold and performs zero formatter invocations, provided the
canonical copy written by the first run reads back equal to the assembled line
list (`readBackLines`; this holds when every input line is newline-terminated
with no interior newlines, and fails for example when an input file lacks a
trailing newline, in which case every re-run is dirty and all work is redone);
it performs zero diff invocations provided additionally no cached diff
artifact is empty (a candidate whose formatted output equals the sample leaves
an empty diff artifact, which fails the non-empty check and is re-diffed
idempotently). -/
theorem c4_rerun_cached (fOr : Style → List String)
    (dOr : List String → List String → List String) (old : List String)
    (files : List (List String)) (opts : List (String × List CandVal))
    (h1 : isOkB (runMain fOr dOr emptyFS old files opts) = true)
    (hclean : readBackLines (assembleLines files) = assembleLines files) :
    isOkB (runMain fOr dOr (getRes (runMain fOr dOr emptyFS old files opts)).cache.fs
      (readBackLines (assembleLines files)) files opts) = true ∧
    (getRes (runMain fOr dOr (getRes (runMain fOr dOr emptyFS old files opts)).cache.fs
      (readBackLines (assembleLines files)) files opts)).style =
      (getRes (runMain fOr dOr emptyFS old files opts)).style ∧
    (getRes (runMain fOr dOr (getRes (runMain fOr dOr emptyFS old files opts)).cache.fs
      (readBackLines (assembleLines files)) files opts)).prevScore =
      (getRes (runMain fOr dOr emptyFS old files opts)).prevScore ∧
    (getRes (runMain fOr dOr (getRes (runMain fOr dOr emptyFS old files opts)).cache.fs
      (readBackLines (assembleLines files)) files opts)).fmtCalls = 0 ∧
    (noEmptyDiffsUpTo (getRes (runMain fOr dOr emptyFS old files opts)).cache.fs
        opts.length = true →
      (getRes (runMain fOr dOr (getRes (runMain fOr dOr emptyFS old files opts)).cache.fs
        (readBackLines (assembleLines files)) files opts)).diffCalls = 0) := by
  have hok1 := isOkB_elim _ h1
  have hrun1 : runOptions fOr dOr (mkInputSC old files).lines opts
      ⟨0, (mkInputSC old files).dirty, emptyFS⟩ []
      ((mkInputSC old files).lines.length * 4) =
      .ok (getRes (runMain fOr dOr emptyFS old files opts)) := hok1
  obtain ⟨k, hrun2, hk⟩ := runTwice fOr dOr _ opts _ _ _ _ hrun1
  have hdirty2 : (mkInputSC (readBackLines (assembleLines files)) files).dirty = false := by
    simp [mkInputSC, hclean]
  have hrm : runMain fOr dOr
      (getRes (runMain fOr dOr emptyFS old files opts)).cache.fs
      (readBackLines (assembleLines files)) files opts =
      .ok ⟨(getRes (runMain fOr dOr emptyFS old files opts)).style,
        (getRes (runMain fOr dOr emptyFS old files opts)).prevScore,
        ⟨(getRes (runMain fOr dOr emptyFS old files opts)).cache.iter, false,
          (getRes (runMain fOr dOr emptyFS old files opts)).cache.fs⟩, 0, k⟩ := by
    show runOptions fOr dOr (mkInputSC (readBackLines (assembleLines files)) files).lines opts
      ⟨0, (mkInputSC (readBackLines (assembleLines files)) files).dirty,
        (getRes (runMain fOr dOr emptyFS old files opts)).cache.fs⟩ []
      ((mkInputSC (readBackLines (assembleLines files)) files).lines.length * 4) = _
    rw [hdirty2]
    exact hrun2
  refine ⟨by rw [hrm]; rfl, by rw [hrm]; rfl, by rw [hrm]; rfl, by rw [hrm]; rfl, ?_⟩
  intro hb
  have hall : noEmptyDiffsAll (getRes (runMain fOr dOr emptyFS old files opts)).cache.fs := by
    apply noEmptyDiffs_bridge _ opts.length hb
    intro j hjgt
    have := runOptions_frame fOr dOr (mkInputSC old files).lines opts
      ⟨0, (mkInputSC old files).dirty, emptyFS⟩ []
      ((mkInputSC old files).lines.length * 4)
      (getRes (runMain fOr dOr emptyFS old files opts)) j hrun1
      (Or.inr (by simpa using hjgt))
    rw [this]
    rfl
  rw [hrm]
  exact hk hall

/-- Witness for C4's amended statement: newline-terminated input, populated
cache with only non-empty diff artifacts; the re-run, reading back the
canonical copy as the program does, performs zero formatter and zero diff
invocations while reproducing the style. -/
theorem c4_witness :
    isOkB (runMain w4bFmt w4Diff emptyFS [] w4Files w4Opts) = true ∧
    readBackLines (assembleLines w4Files) = assembleLines w4Files ∧
    noEmptyDiffsUpTo (getRes (runMain w4bFmt w4Diff emptyFS [] w4Files w4Opts)).cache.fs
      w4Opts.length = true ∧
    (getRes (runMain w4bFmt w4Diff
      (getRes (runMain w4bFmt w4Diff emptyFS [] w4Files w4Opts)).cache.fs
      (readBackLines (assembleLines w4Files)) w4Files w4Opts)).style =
      (getRes (runMain w4bFmt w4Diff emptyFS [] w4Files w4Opts)).style ∧
    (getRes (runMain w4bFmt w4Diff
      (getRes (runMain w4bFmt w4Diff emptyFS [] w4Files w4Opts)).cache.fs
      (readBackLines (assembleLines w4Files)) w4Files w4Opts)).fmtCalls = 0 ∧
    (getRes (runMain w4bFmt w4Diff
      (getRes (runMain w4bFmt w4Diff emptyFS [] w4Files w4Opts)).cache.fs
      (readBackLines (assembleLines w4Files)) w4Files w4Opts)).diffCalls = 0 :=
  ⟨rfl, by decide, rfl,
   (c4_rerun_cached w4bFmt w4Diff [] w4Files w4Opts rfl (by decide)).2.1,
   (c4_rerun_cached w4bFmt w4Diff [] w4Files w4Opts rfl (by decide)).2.2.2.1,
   (c4_rerun_cached w4bFmt w4Diff [] w4Files w4Opts rfl (by decide)).2.2.2.2 rfl⟩

/-- Counterexample to C5 as stated: the grep pattern `^[\+\-]` also matches a
line whose first character is a backslash (a backslash inside a POSIX bracket
expression is an ordinary member), such as the unified-diff marker line
`\ No newline at end of file`; the program counts it, the claim's count does
not. -/
theorem c5_counterexample :
    computeScore [("\\ No newline at end of file")] = 1 ∧
    specMarkerCount [("\\ No newline at end of file")] = 0 := by
  constructor
  · rfl
  · rfl

/-- Claim C5 as amended: a candidate's score is the number of lines of its
diff artifact whose first character is `+`, `-` or `\` (the grep bracket
expression `[\+\-]` contains a literal backslash); on diff artifacts none of
whose lines begin with a backslash, it equals the claimed count of lines
beginning with `+` or `-`. -/
theorem c5_score_count (fs : FS) (i : Nat) (v : String)
    (h : ∀ l ∈ diffLinesAt fs i v, l.data.head? ≠ some ('\\')) :
    computeScore (diffLinesAt fs i v) = specMarkerCount (diffLinesAt fs i v) := by
  unfold computeScore specMarkerCount
  rw [List.filter_congr]
  intro l hl
  have hlb := h l hl
  unfold grepMarkerLine specMarkerLine
  cases hd : l.data with
  | nil => rfl
  | cons c t =>
    rw [hd] at hlb
    have hc : ¬ (c = '\\') := by
      intro hEq
      exact hlb (by rw [hEq]; rfl)
    show (decide (c = '+') || decide (c = '-') || decide (c = '\\')) =
      (decide (c = '+') || decide (c = '-'))
    simp [hc]

/-- A concrete dump directory holding one diff artifact for the C5 witness. -/
def w5FS : FS :=
  fun j => if j = 1 then
    some ⟨none, [(("A"), ⟨none, some [("+a")], some [("+a"), ("-b"), (" c")]⟩)]⟩
  else none

/-- Witness for C5's amended statement: a three-line diff artifact without
backslash lines scores 2 under both counts. -/
theorem c5_witness :
    (∀ l ∈ diffLinesAt w5FS 1 ("A"), l.data.head? ≠ some ('\\')) ∧
    computeScore (diffLinesAt w5FS 1 ("A")) = specMarkerCount (diffLinesAt w5FS 1 ("A")) :=
  ⟨by decide, c5_score_count w5FS 1 ("A") (by decide)⟩

/-- Claim C6: the winner of an option iteration is `results[0]` after the
stable ascending sort by score: it is the first record in candidate-list order
carrying the minimal score, and when the option is accepted (scores not all
tied, minimum below the running threshold) the style gains the winner's
selection name. -/
theorem c6_winner_selection (fOr : Style → List String)
    (dOr : List String → List String → List String) (L : List String)
    (st : CacheState) (bs : Style) (key : String) (values : List CandVal)
    (prev : Nat)
    (h : isOkB (experimentForOption fOr dOr L st bs key values prev) = true) :
    ∀ r0 t, sortResults (expResults fOr dOr L st bs key values) = r0 :: t →
    ((expResults fOr dOr L st bs key values).find? (fun p => decide (p.1 = r0.1)) = some r0 ∧
     some r0.1 = minScoreSpec ((expResults fOr dOr L st bs key values).map (fun p => p.1)) ∧
     (r0.1 ≠ (t.getLastD r0).1 → r0.1 < prev →
       (getRes (experimentForOption fOr dOr L st bs key values prev)).style =
         dictSet bs key r0.2)) := by
  intro r0 t hs
  obtain ⟨-, hsel0, -, -, -⟩ := experiment_ok_elim _ _ _ _ _ _ _ _ _ (isOkB_elim _ h)
  have hsel : selectOutcome bs key prev (expResults fOr dOr L st bs key values) =
      some ((getRes (experimentForOption fOr dOr L st bs key values prev)).style,
        (getRes (experimentForOption fOr dOr L st bs key values prev)).prevScore) := hsel0
  unfold selectOutcome at hsel
  rw [hs] at hsel
  have hsel2 : some (if (decide (r0.1 = (t.getLastD r0).1) || decide (prev ≤ r0.1)) = true
      then bs else dictSet bs key r0.2, r0.1) =
      some ((getRes (experimentForOption fOr dOr L st bs key values prev)).style,
        (getRes (experimentForOption fOr dOr L st bs key values prev)).prevScore) := hsel
  have hsty : (getRes (experimentForOption fOr dOr L st bs key values prev)).style =
      if (decide (r0.1 = (t.getLastD r0).1) || decide (prev ≤ r0.1)) = true
      then bs else dictSet bs key r0.2 :=
    (congrArg Prod.fst (Option.some.inj hsel2)).symm
  refine ⟨sortResults_find _ r0 t hs, ?_, ?_⟩
  · have hmin := sortResults_min (expResults fOr dOr L st bs key values)
    rw [hs] at hmin
    exact hmin
  · intro hne hlt
    have hne2 : ¬ (r0.1 = (t.getLast?.getD r0).1) := by
      rw [← List.getLastD_eq_getLast?]
      exact hne
    have h1 : decide (r0.1 = (t.getLastD r0).1) = false := by simp [hne2]
    have h2 : decide (prev ≤ r0.1) = false := by
      simp [Nat.not_le.mpr hlt]
    rw [hsty, if_neg (by simp [h1, h2, hne2])]

/-- Witness for C6 at the concrete input: sorted results `[(2, A), (3, B)]`,
winner `A` accepted. -/
theorem c6_witness :
    isOkB (experimentForOption wFmt wDiff wLines wState [] ("K") wVals 100) = true ∧
    sortResults (expResults wFmt wDiff wLines wState [] ("K") wVals) =
      (2, ("A")) :: [(3, ("B"))] ∧
    ((expResults wFmt wDiff wLines wState [] ("K") wVals).find?
        (fun p => decide (p.1 = 2)) = some (2, ("A")) ∧
     some 2 = minScoreSpec ((expResults wFmt wDiff wLines wState [] ("K") wVals).map
       (fun p => p.1)) ∧
     (2 ≠ ([(3, ("B"))].getLastD (2, ("A"))).1 → 2 < 100 →
       (getRes (experimentForOption wFmt wDiff wLines wState [] ("K") wVals 100)).style =
         dictSet [] ("K") ("A"))) :=
  ⟨rfl, rfl,
   c6_winner_selection wFmt wDiff wLines wState [] ("K") wVals 100 rfl (2, ("A"))
     [(3, ("B"))] rfl⟩

/-- Formatter oracle for the C7 counterexample: formatted outputs are much
longer than the two-line sample (8 and 9 marker lines). -/
def w7Fmt : Style → List String :=
  fun s => if s = [(("K"), ("A"))] then List.replicate 8 ("+z") else List.replicate 9 ("+z")

/-- Input files for the C7 scenarios: one one-line file. -/
def w7Files : List (List String) := [[("a\n")]]

/-- Counterexample to C7's second half: with the sample's 2 lines the initial
threshold is 8, the first option's candidates score 8 and 9 (distinct, so no
tie skip), and `minScore = 8 ≥ 8 = prevScore` makes the non-improvement rule
skip the very first option: the final style has no entry. -/
theorem c7_counterexample :
    isOkB (runMain w7Fmt wDiff emptyFS [] w7Files
      [(("K"), [.plain ("A"), .plain ("B")])]) = true ∧
    (assembleLines w7Files).length * 4 = 8 ∧
    (getRes (runMain w7Fmt wDiff emptyFS [] w7Files
      [(("K"), [.plain ("A"), .plain ("B")])])).prevScore = 8 ∧
    scoreResults (getRes (runMain w7Fmt wDiff emptyFS [] w7Files
      [(("K"), [.plain ("A"), .plain ("B")])])).cache.fs 1 [("A"), ("B")] =
      [(8, ("A")), (9, ("B"))] ∧
    (getRes (runMain w7Fmt wDiff emptyFS [] w7Files
      [(("K"), [.plain ("A"), .plain ("B")])])).style = [] :=
  ⟨rfl, rfl, rfl, rfl, rfl⟩

/-- Claim C7 as amended: `main` initializes the running threshold to
`numLines * 4`; under that initialization the first option is accepted
whenever its minimum score is below `numLines * 4` and its scores are not all
tied, but it is skipped by the non-improvement rule whenever its minimum score
reaches `numLines * 4` (possible when formatted outputs are sufficiently
longer than the sample). -/
theorem c7_first_option (fOr : Style → List String)
    (dOr : List String → List String → List String) (old : List String)
    (files : List (List String)) (fs0 : FS) (key : String) (values : List CandVal)
    (h : isOkB (experimentForOption fOr dOr (assembleLines files)
      ⟨0, (mkInputSC old files).dirty, fs0⟩ [] key values
      ((assembleLines files).length * 4)) = true) :
    ∀ m x,
    minScoreSpec ((expResults fOr dOr (assembleLines files)
      ⟨0, (mkInputSC old files).dirty, fs0⟩ [] key values).map (fun p => p.1)) = some m →
    maxScoreSpec ((expResults fOr dOr (assembleLines files)
      ⟨0, (mkInputSC old files).dirty, fs0⟩ [] key values).map (fun p => p.1)) = some x →
    ((m < (assembleLines files).length * 4 → m ≠ x →
      ∃ w, (expResults fOr dOr (assembleLines files)
          ⟨0, (mkInputSC old files).dirty, fs0⟩ [] key values).find?
          (fun p => decide (p.1 = m)) = some w ∧
        (getRes (experimentForOption fOr dOr (assembleLines files)
          ⟨0, (mkInputSC old files).dirty, fs0⟩ [] key values
          ((assembleLines files).length * 4))).style = dictSet [] key w.2) ∧
     ((assembleLines files).length * 4 ≤ m →
      (getRes (experimentForOption fOr dOr (assembleLines files)
        ⟨0, (mkInputSC old files).dirty, fs0⟩ [] key values
        ((assembleLines files).length * 4))).style = [])) := by
  intro m x hm hx
  obtain ⟨-, hsel, -, -, -⟩ := experiment_ok_elim _ _ _ _ _ _ _ _ _ (isOkB_elim _ h)
  have hcases := select_cases [] key ((assembleLines files).length * 4)
    (expResults fOr dOr (assembleLines files)
      ⟨0, (mkInputSC old files).dirty, fs0⟩ [] key values)
    (getRes (experimentForOption fOr dOr (assembleLines files)
      ⟨0, (mkInputSC old files).dirty, fs0⟩ [] key values
      ((assembleLines files).length * 4))).style
    (getRes (experimentForOption fOr dOr (assembleLines files)
      ⟨0, (mkInputSC old files).dirty, fs0⟩ [] key values
      ((assembleLines files).length * 4))).prevScore hsel m x hm hx
  constructor
  · intro hlt hne
    exact hcases.2.2 hne hlt
  · intro hge
    exact hcases.2.1 (Or.inr hge)

/-- Witness for C7's amended statement: scores 2 and 3 against threshold 8,
first option accepted. -/
theorem c7_witness :
    isOkB (experimentForOption wFmt wDiff (assembleLines w7Files)
      ⟨0, (mkInputSC [] w7Files).dirty, emptyFS⟩ [] ("K") wVals
      ((assembleLines w7Files).length * 4)) = true ∧
    ((2 < (assembleLines w7Files).length * 4 → 2 ≠ 3 →
      ∃ w, (expResults wFmt wDiff (assembleLines w7Files)
          ⟨0, (mkInputSC [] w7Files).dirty, emptyFS⟩ [] ("K") wVals).find?
          (fun p => decide (p.1 = 2)) = some w ∧
        (getRes (experimentForOption wFmt wDiff (assembleLines w7Files)
          ⟨0, (mkInputSC [] w7Files).dirty, emptyFS⟩ [] ("K") wVals
          ((assembleLines w7Files).length * 4))).style = dictSet [] ("K") w.2) ∧
     ((assembleLines w7Files).length * 4 ≤ 2 →
      (getRes (experimentForOption wFmt wDiff (assembleLines w7Files)
        ⟨0, (mkInputSC [] w7Files).dirty, emptyFS⟩ [] ("K") wVals
        ((assembleLines w7Files).length * 4))).style = [])) :=
  ⟨rfl, c7_first_option wFmt wDiff [] w7Files emptyFS ("K") wVals rfl 2 3 rfl rfl⟩

/-- Claim C8: once a style descriptor artifact exists for a candidate, every
further `writeStyleFile` call for that candidate leaves the dump directory
entirely unchanged, even when called with a different style value — first
writer wins. -/
theorem c8_style_write_once (fs : FS) (i : Nat) (v : String) (s : CandidateSlot)
    (st0 : Style) (style2 : Style) (h1 : slotAt fs i v = some s)
    (h2 : s.styleFile = some st0) :
    writeStyleFile fs i v style2 = fs := by
  unfold writeStyleFile
  refine modifySlot_eq_self _ _ _ s _ h1 ?_
  rw [h2]

/-- A concrete dump directory with a written style descriptor for the C8
witness. -/
def w8FS : FS :=
  fun j => if j = 1 then
    some ⟨none, [(("A"), ⟨some [(("k"), ("v"))], none, none⟩)]⟩
  else none

/-- Witness for C8: rewriting candidate `A`'s descriptor with a different
style changes nothing. -/
theorem c8_witness :
    slotAt w8FS 1 ("A") = some ⟨some [(("k"), ("v"))], none, none⟩ ∧
    writeStyleFile w8FS 1 ("A") [(("k"), ("z"))] = w8FS :=
  ⟨by decide, c8_style_write_once w8FS 1 ("A") ⟨some [(("k"), ("v"))], none, none⟩
    [(("k"), ("v"))] [(("k"), ("z"))] (by decide) rfl⟩

/-- Claim C9: when, after the formatter batch, some candidate still lacks a
non-empty formatted artifact, the run terminates immediately with the fatal
error naming the first such candidate's formatted artifact
(`iter<i>/<v>/formatted...`), before the diff batch and scoring run and
without any retry: the experiment's result is exactly that error. -/
theorem c9_fatal_on_missing_fmt (fOr : Style → List String)
    (dOr : List String → List String → List String) (L : List String)
    (st : CacheState) (bs : Style) (key : String) (values : List CandVal)
    (prev : Nat) (w : String)
    (h : (expNames key values).find?
      (fun v => !hasFmtCache (expFmtFS fOr st bs key values).1 (st.iter + 1) v) = some w) :
    experimentForOption fOr dOr L st bs key values prev =
      .error (fmtFatalMsg (st.iter + 1) w) ∧
    w ∈ expNames key values ∧
    hasFmtCache (expFmtFS fOr st bs key values).1 (st.iter + 1) w = false := by
  refine ⟨?_, List.mem_of_find?_eq_some h, ?_⟩
  · unfold experimentForOption
    rw [h]
  · have := List.find?_some h
    simpa using this

/-- Formatter oracle for the C9 witness: the formatter produces empty output
(an invalid option), so no candidate gains a non-empty formatted artifact. -/
def w9Fmt : Style → List String := fun _ => []

/-- Witness for C9: with an always-empty formatter the run aborts with the
fatal error naming the first candidate. -/
theorem c9_witness :
    (expNames ("K") wVals).find?
      (fun v => !hasFmtCache (expFmtFS w9Fmt wState [] ("K") wVals).1 1 v) = some ("A") ∧
    experimentForOption w9Fmt wDiff wLines wState [] ("K") wVals 100 =
      .error (fmtFatalMsg 1 ("A")) :=
  ⟨by decide,
   (c9_fatal_on_missing_fmt w9Fmt wDiff wLines wState [] ("K") wVals 100 ("A")
     (by decide)).1⟩

/-- The option loop of `main` built on the spec-worded acceptance step. -/
def specRunMain (fOr : Style → List String)
    (dOr : List String → List String → List String) (fs0 : FS)
    (oldContent : List String) (files : List (List String))
    (opts : List (String × List CandVal)) : Except String RunResult :=
  let inp := mkInputSC oldContent files
  specRunOptions fOr dOr inp.lines opts ⟨0, inp.dirty, fs0⟩ [] (inp.lines.length * 4)

/-- Claim C10: the final style printed by `main` is exactly the fold of the
spec-worded acceptance policy over the options in order.  In the source,
`experimentForOption` mutates the dict `baseStyle` in place and `main` binds
the returned pair to the dead variable `baseStype`; since the mutation targets
the very object `main` still references, the accumulated acceptances reach
each later iteration and the final print, which the embedding renders by
threading the returned style (see `runOptions`).  The theorem: the coded run
equals, on every input, the spec-worded greedy fold (extrema of scores, first
minimal candidate, tie and non-improvement skips, threshold update). -/
theorem c10_main_matches_spec_fold (fOr : Style → List String)
    (dOr : List String → List String → List String) (fs0 : FS)
    (oldContent : List String) (files : List (List String))
    (opts : List (String × List CandVal)) :
    runMain fOr dOr fs0 oldContent files opts =
      specRunMain fOr dOr fs0 oldContent files opts := by
  unfold runMain specRunMain
  exact runOptions_eq_spec fOr dOr _ opts _ _ _
